import Mathlib

/-!
# Bresenham circle rasterizer (`bresenham.c`)

A shallow embedding of the functions `hline`, `dot` and `bh` of `bresenham.c`,
followed by theorems about the loop of `bh`.

Modelling conventions.

* The program computes with 32-bit `int`.  It is embedded twice.
  `init32`, `draw32`, `body32`, `bhLoop32` (with `bhIters32`, `bh32`, and
  `shl32`, `dot32`, `hline32` for the output functions) reduce the result of
  every `int` operation to 32 bits, two's complement (`wrap32`): this is the
  program.  `init`, `draw`, `body`, `bhLoop` (with `bhIters`, `bh`, `shl1`,
  `dot`, `hline`) are the same code over the mathematical integers: the run
  without overflow.  The two runs agree for `0 <= r <= 46340` and a centre at
  distance more than `r` from the ends of the `int` range (`bh_int32`); from
  `r = 46341` on `r*r` no longer fits an `int`.  What depends on the computed
  values is stated on the 32-bit program, within the range where it holds.
* Standard output is not a string but a list of draw primitives `Ev`: one
  entry per call of `dot`, of `hline`, and per trace `printf`.  The bytes that
  `hline` and `dot` hand to `printf` are modelled separately (`hline`,
  `dot`).
* The `while` loop is a structurally recursive function over an iteration
  budget.  `bhRun` starts it with the budget `(r + 1).toNat`, the value of the
  loop variant `y - x + 1` on entry; `bhLoop_budget` shows that any larger
  budget gives the same run and `bhLoop_exit` that the run stops because the
  guard `x <= y` is false, not because the budget is used up.
-/

namespace Bresenham

/-! ## Flags -/

/-- The flag `FL_FILL`, defined as `1 << 0`. -/
def FL_FILL : Int := 1

/-- The flag `FL_TRACE`, defined as `1 << 1`. -/
def FL_TRACE : Int := 2

/-- The C test `flags & m` used as a condition: the bitwise and is non-zero. -/
def flagSet (flags m : Int) : Bool := Int.land flags m != 0

/-! ## Draw primitives -/

/-- One observable action of `bh`: a call `dot(x, y)`, a call
`hline(x1, x2, y)`, or the trace `printf` with its seven arguments
`x, x2, dx2, y, y2, dy2, sum`. -/
inductive Ev where
  | dot (x y : Int)
  | hline (x1 x2 y : Int)
  | trace (x x2 dx2 y y2 dy2 sum : Int)
  deriving DecidableEq, Repr

/-! ## Terminal output of `hline` and `dot` -/

/-- The static buffer `theLine` of `hline`: nine string literals of 41 stars. -/
def theLine : List Char := List.replicate (9 * 41) '*'

/-- The C expression `a << 1` over the integers, without overflow (`shl32` is
the 32-bit operation). -/
def shl1 (a : Int) : Int := a * 2

/-- The conversion `%d` of `printf`. -/
def fmtD (a : Int) : List Char := (toString a).toList

/-- The conversion `%.*s` of `printf` with precision argument `p`: at most `p`
characters of the string; a negative precision counts as no precision. -/
def fmtPrecS (p : Int) (s : List Char) : List Char :=
  if p < 0 then s else s.take p.toNat

/-- The cursor-position sequence `ESC [ row ; col H`. -/
def cursorSeq (row col : Int) : List Char :=
  ['\x1b', '['] ++ fmtD row ++ [';'] ++ fmtD col ++ ['H']

/-- Characters written by `hline(x1, x2, y)`:
`printf("\033[%d;%dH%.*s", y, x1<<1, (x2 - x1 + 1)<<1, theLine)`. -/
def hline (x1 x2 y : Int) : List Char :=
  cursorSeq y (shl1 x1) ++ fmtPrecS (shl1 (x2 - x1 + 1)) theLine

/-- Characters written by `dot(x, y)`: `printf("\033[%d;%dH*", y, x<<1)`. -/
def dot (x y : Int) : List Char :=
  cursorSeq y (shl1 x) ++ ['*']

/-! ## The rasterizer `bh` -/

/-- The local variables of `bh` that change in the loop. -/
structure St where
  x : Int
  x2 : Int
  dx2 : Int
  y : Int
  y2 : Int
  dy2 : Int
  sum : Int
  deriving DecidableEq, Repr

/-- The declarations at the top of `bh`, over the integers (`init32` is the
32-bit version):
`r2 = r*r + r; x = 0, x2 = 0, dx2 = 1; y = r, y2 = y*y, dy2 = 2*y - 1; sum = r2`. -/
def init (r : Int) : St :=
  let r2 := r * r + r
  let y := r
  { x := 0, x2 := 0, dx2 := 1, y := y, y2 := y * y, dy2 := 2 * y - 1, sum := r2 }

/-- First half of the loop body, over the integers: the output for the
current `(x, y)`. -/
def draw (cx cy flags : Int) (s : St) : List Ev :=
  if flagSet flags FL_TRACE then
    [Ev.trace s.x s.x2 s.dx2 s.y s.y2 s.dy2 s.sum]
  else if flagSet flags FL_FILL then
    [Ev.hline (cx - s.y) (cx + s.y) (cy + s.x),
     Ev.hline (cx - s.y) (cx + s.y) (cy - s.x)]
  else
    [Ev.dot (cx - s.y) (cy + s.x), Ev.dot (cx + s.y) (cy + s.x),
     Ev.dot (cx - s.y) (cy - s.x), Ev.dot (cx + s.y) (cy - s.x),
     Ev.dot (cx - s.x) (cy - s.y), Ev.dot (cx + s.x) (cy - s.y),
     Ev.dot (cx - s.x) (cy + s.y), Ev.dot (cx + s.x) (cy + s.y)]

/-- One execution of the loop body, over the integers: the primitives it
emits and the state it leaves. -/
def body (cx cy flags : Int) (s : St) : List Ev × St :=
  let out := draw cx cy flags s
  let sum := s.sum - s.dx2
  if sum ≤ s.y2 then
    let cap :=
      if !(flagSet flags FL_TRACE) && flagSet flags FL_FILL then
        [Ev.hline (cx - s.x) (cx + s.x) (cy - s.y),
         Ev.hline (cx - s.x) (cx + s.x) (cy + s.y)]
      else []
    (out ++ cap,
     { x := s.x + 1, x2 := s.x2 + s.dx2, dx2 := s.dx2 + 2,
       y := s.y - 1, y2 := s.y2 - s.dy2, dy2 := s.dy2 - 2, sum := sum })
  else
    (out,
     { x := s.x + 1, x2 := s.x2 + s.dx2, dx2 := s.dx2 + 2,
       y := s.y, y2 := s.y2, dy2 := s.dy2, sum := sum })

/-- The loop `while (x <= y) { ... }` over the integers, run for at most `n`
iterations.  The result lists, per iteration, the state at the top of the
iteration and the primitives emitted in it, and gives the state in which the
loop was left. -/
def bhLoop (cx cy flags : Int) : Nat → St → List (St × List Ev) × St
  | 0, s => ([], s)
  | n + 1, s =>
    if s.x ≤ s.y then
      let b := body cx cy flags s
      let rest := bhLoop cx cy flags n b.2
      ((s, b.1) :: rest.1, rest.2)
    else ([], s)

/-- The run of `bh(r, cx, cy, flags)` over the integers: its iterations and
its exit state. -/
def bhRun (r cx cy flags : Int) : List (St × List Ev) × St :=
  bhLoop cx cy flags (r + 1).toNat (init r)

/-- The iterations of `bh(r, cx, cy, flags)` over the integers. -/
def bhIters (r cx cy flags : Int) : List (St × List Ev) :=
  (bhRun r cx cy flags).1

/-- The sequence of primitives emitted by `bh(r, cx, cy, flags)` over the
integers. -/
def bh (r cx cy flags : Int) : List Ev :=
  ((bhIters r cx cy flags).map Prod.snd).flatten

/-- The cells `(col, row)` marked by a primitive: a horizontal segment marks
the cells `x1 .. x2` of its row, a dot its own cell, a trace line nothing. -/
def Ev.marks : Ev → Int → Int → Prop
  | Ev.dot x y, p, q => p = x ∧ q = y
  | Ev.hline x1 x2 y, p, q => q = y ∧ x1 ≤ p ∧ p ≤ x2
  | Ev.trace _ _ _ _ _ _ _, _, _ => False

/-- The cell `(p, q)` is marked by some primitive of the list. -/
def marked (evs : List Ev) (p q : Int) : Prop :=
  ∃ e ∈ evs, e.marks p q

/-! ## The state transformer of the loop body -/

/-- The state left by one execution of the loop body; it does not depend on
the centre or on the flags (`body_snd`). -/
def step (s : St) : St :=
  if s.sum - s.dx2 ≤ s.y2 then
    { x := s.x + 1, x2 := s.x2 + s.dx2, dx2 := s.dx2 + 2,
      y := s.y - 1, y2 := s.y2 - s.dy2, dy2 := s.dy2 - 2, sum := s.sum - s.dx2 }
  else
    { x := s.x + 1, x2 := s.x2 + s.dx2, dx2 := s.dx2 + 2,
      y := s.y, y2 := s.y2, dy2 := s.dy2, sum := s.sum - s.dx2 }

/-- The primitives emitted when the radial bound shrinks (fill mode only). -/
def capOut (cx cy flags : Int) (s : St) : List Ev :=
  if !(flagSet flags FL_TRACE) && flagSet flags FL_FILL then
    [Ev.hline (cx - s.x) (cx + s.x) (cy - s.y),
     Ev.hline (cx - s.x) (cx + s.x) (cy + s.y)]
  else []

/-- All primitives of a list of iterations, in order. -/
def evsOf (l : List (St × List Ev)) : List Ev := (l.map Prod.snd).flatten

/-- The arithmetic relations between the incremental variables of `bh`. -/
structure Inv (r : Int) (s : St) : Prop where
  hx2 : s.x2 = s.x * s.x
  hy2 : s.y2 = s.y * s.y
  hdx2 : s.dx2 = 2 * s.x + 1
  hdy2 : s.dy2 = 2 * s.y - 1
  hsum : s.sum = r * r + r - s.x2

/-- Bounds on `x` and `y` and the lower half of the midpoint condition. -/
structure Geo (r : Int) (s : St) : Prop where
  x_nonneg : 0 ≤ s.x
  y_le : s.y ≤ r
  y_ge : -1 ≤ s.y
  lower : r * r + r ≤ s.x * s.x + (s.y + 1) * (s.y + 1)

/-- Inside the loop the point `(x, y)` lies in the band of the circle. -/
structure Band (r : Int) (s : St) : Prop where
  upper : s.x ≤ s.y → s.x * s.x + s.y * s.y < r * r + r
  inner : s.x ≤ s.y → r * r - r < s.x * s.x + s.y * s.y

/-- The three invariants together, for a radius `r >= 1`. -/
def Full (r : Int) (s : St) : Prop := Inv r s ∧ Geo r s ∧ Band r s

/-! ## Translation of primitives -/

/-- The primitive moved by `(dx, dy)`: a point `(a, b)` becomes
`(a + dx, b + dy)`, a segment `(x1, x2, row)` becomes
`(x1 + dx, x2 + dx, row + dy)`, a trace line is unchanged. -/
def Ev.shift (dx dy : Int) : Ev → Ev
  | Ev.dot x y => Ev.dot (x + dx) (y + dy)
  | Ev.hline x1 x2 y => Ev.hline (x1 + dx) (x2 + dx) (y + dy)
  | Ev.trace x x2 dx2 y y2 dy2 sum => Ev.trace x x2 dx2 y y2 dy2 sum

/-! ## The rasterizer with 32-bit wrap-around arithmetic -/

/-- Reduction of an integer to the range of a 32-bit `int`, two's complement. -/
def wrap32 (a : Int) : Int := (a + 2147483648) % 4294967296 - 2147483648

/-- The value is representable in a signed 32-bit `int`. -/
def inInt32 (a : Int) : Prop := -2147483648 ≤ a ∧ a ≤ 2147483647

/-- All seven variables of a state are representable in a 32-bit `int`. -/
def St.inInt32 (s : St) : Prop :=
  Bresenham.inInt32 s.x ∧ Bresenham.inInt32 s.x2 ∧ Bresenham.inInt32 s.dx2 ∧
  Bresenham.inInt32 s.y ∧ Bresenham.inInt32 s.y2 ∧ Bresenham.inInt32 s.dy2 ∧
  Bresenham.inInt32 s.sum

/-- The declarations at the top of `bh`, every operation reduced to 32 bits. -/
def init32 (r : Int) : St :=
  let r2 := wrap32 (wrap32 (r * r) + r)
  let y := r
  { x := 0, x2 := 0, dx2 := 1, y := y, y2 := wrap32 (y * y),
    dy2 := wrap32 (wrap32 (2 * y) - 1), sum := r2 }

/-- First half of the loop body with 32-bit arithmetic. -/
def draw32 (cx cy flags : Int) (s : St) : List Ev :=
  if flagSet flags FL_TRACE then
    [Ev.trace s.x s.x2 s.dx2 s.y s.y2 s.dy2 s.sum]
  else if flagSet flags FL_FILL then
    [Ev.hline (wrap32 (cx - s.y)) (wrap32 (cx + s.y)) (wrap32 (cy + s.x)),
     Ev.hline (wrap32 (cx - s.y)) (wrap32 (cx + s.y)) (wrap32 (cy - s.x))]
  else
    [Ev.dot (wrap32 (cx - s.y)) (wrap32 (cy + s.x)),
     Ev.dot (wrap32 (cx + s.y)) (wrap32 (cy + s.x)),
     Ev.dot (wrap32 (cx - s.y)) (wrap32 (cy - s.x)),
     Ev.dot (wrap32 (cx + s.y)) (wrap32 (cy - s.x)),
     Ev.dot (wrap32 (cx - s.x)) (wrap32 (cy - s.y)),
     Ev.dot (wrap32 (cx + s.x)) (wrap32 (cy - s.y)),
     Ev.dot (wrap32 (cx - s.x)) (wrap32 (cy + s.y)),
     Ev.dot (wrap32 (cx + s.x)) (wrap32 (cy + s.y))]

/-- One execution of the loop body with 32-bit arithmetic. -/
def body32 (cx cy flags : Int) (s : St) : List Ev × St :=
  let out := draw32 cx cy flags s
  let sum := wrap32 (s.sum - s.dx2)
  if sum ≤ s.y2 then
    let cap :=
      if !(flagSet flags FL_TRACE) && flagSet flags FL_FILL then
        [Ev.hline (wrap32 (cx - s.x)) (wrap32 (cx + s.x)) (wrap32 (cy - s.y)),
         Ev.hline (wrap32 (cx - s.x)) (wrap32 (cx + s.x)) (wrap32 (cy + s.y))]
      else []
    (out ++ cap,
     { x := wrap32 (s.x + 1), x2 := wrap32 (s.x2 + s.dx2), dx2 := wrap32 (s.dx2 + 2),
       y := wrap32 (s.y - 1), y2 := wrap32 (s.y2 - s.dy2), dy2 := wrap32 (s.dy2 - 2),
       sum := sum })
  else
    (out,
     { x := wrap32 (s.x + 1), x2 := wrap32 (s.x2 + s.dx2), dx2 := wrap32 (s.dx2 + 2),
       y := s.y, y2 := s.y2, dy2 := s.dy2, sum := sum })

/-- The loop of `bh` with 32-bit arithmetic, run for at most `n` iterations. -/
def bhLoop32 (cx cy flags : Int) : Nat → St → List (St × List Ev) × St
  | 0, s => ([], s)
  | n + 1, s =>
    if s.x ≤ s.y then
      let b := body32 cx cy flags s
      let rest := bhLoop32 cx cy flags n b.2
      ((s, b.1) :: rest.1, rest.2)
    else ([], s)

/-- The run of `bh(r, cx, cy, flags)` with 32-bit arithmetic and a budget of
`n` iterations. -/
def bhRun32 (n : Nat) (r cx cy flags : Int) : List (St × List Ev) × St :=
  bhLoop32 cx cy flags n (init32 r)

/-! ## The 32-bit program -/

/-- The state left by one execution of the 32-bit loop body; it does not
depend on the centre or on the flags (`body32_step`). -/
def step32 (s : St) : St :=
  if wrap32 (s.sum - s.dx2) ≤ s.y2 then
    { x := wrap32 (s.x + 1), x2 := wrap32 (s.x2 + s.dx2), dx2 := wrap32 (s.dx2 + 2),
      y := wrap32 (s.y - 1), y2 := wrap32 (s.y2 - s.dy2), dy2 := wrap32 (s.dy2 - 2),
      sum := wrap32 (s.sum - s.dx2) }
  else
    { x := wrap32 (s.x + 1), x2 := wrap32 (s.x2 + s.dx2), dx2 := wrap32 (s.dx2 + 2),
      y := s.y, y2 := s.y2, dy2 := s.dy2, sum := wrap32 (s.sum - s.dx2) }

/-- The primitives emitted by the 32-bit loop body when the radial bound
shrinks (fill mode only). -/
def capOut32 (cx cy flags : Int) (s : St) : List Ev :=
  if !(flagSet flags FL_TRACE) && flagSet flags FL_FILL then
    [Ev.hline (wrap32 (cx - s.x)) (wrap32 (cx + s.x)) (wrap32 (cy - s.y)),
     Ev.hline (wrap32 (cx - s.x)) (wrap32 (cx + s.x)) (wrap32 (cy + s.y))]
  else []

/-- The iterations of `bh(r, cx, cy, flags)` as the program performs them,
with 32-bit `int` arithmetic.  The budget `r + 1` is enough for every
`r <= 2^31 - 2` (`bhRun32_exit`). -/
def bhIters32 (r cx cy flags : Int) : List (St × List Ev) :=
  (bhRun32 (r + 1).toNat r cx cy flags).1

/-- The sequence of primitives emitted by `bh(r, cx, cy, flags)` with 32-bit
`int` arithmetic. -/
def bh32 (r cx cy flags : Int) : List Ev :=
  evsOf (bhIters32 r cx cy flags)

/-- The C expression `a << 1` on a 32-bit `int`. -/
def shl32 (a : Int) : Int := wrap32 (a * 2)

/-- Characters written by `dot(x, y)` with 32-bit arithmetic. -/
def dot32 (x y : Int) : List Char :=
  cursorSeq y (shl32 x) ++ ['*']

/-- Characters written by `hline(x1, x2, y)` with 32-bit arithmetic. -/
def hline32 (x1 x2 y : Int) : List Char :=
  cursorSeq y (shl32 x1) ++ fmtPrecS (shl32 (wrap32 (wrap32 (x2 - x1) + 1))) theLine

/-! ## Fast evaluation of the 32-bit guard -/

/-- Signed comparison `a <= b` of two 32-bit values given by their residues
modulo `2^32`. -/
def sle32 (a b : Nat) : Bool :=
  Nat.ble ((a + 2147483648) % 4294967296) ((b + 2147483648) % 4294967296)

/-- The guard `x <= y` holds at the top of each of the first `n` iterations
of the 32-bit loop started with the given `x, dx2, y, y2, dy2, sum`, each
given by its residue modulo `2^32` (`x2` does not influence the control
flow). -/
def guards32 : Nat → Nat → Nat → Nat → Nat → Nat → Nat → Bool
  | 0, _, _, _, _, _, _ => true
  | n + 1, x, dx2, y, y2, dy2, sum =>
    if sle32 x y then
      if sle32 ((sum + 4294967296 - dx2) % 4294967296) y2 then
        guards32 n ((x + 1) % 4294967296) ((dx2 + 2) % 4294967296)
          ((y + 4294967295) % 4294967296) ((y2 + 4294967296 - dy2) % 4294967296)
          ((dy2 + 4294967294) % 4294967296) ((sum + 4294967296 - dx2) % 4294967296)
      else
        guards32 n ((x + 1) % 4294967296) ((dx2 + 2) % 4294967296) y y2 dy2
          ((sum + 4294967296 - dx2) % 4294967296)
    else false

/-- The natural number `u < 2^32` is the residue of the 32-bit value `v`. -/
structure Enc (u : Nat) (v : Int) : Prop where
  lt : u < 4294967296
  eq : v = wrap32 (u : Int)

/-! ## The loop body and the loop -/

theorem body_snd (cx cy flags : Int) (s : St) : (body cx cy flags s).2 = step s := by
  unfold body step
  by_cases h : s.sum - s.dx2 ≤ s.y2 <;> simp [h]

theorem body_fst (cx cy flags : Int) (s : St) :
    (body cx cy flags s).1 =
      draw cx cy flags s ++ (if s.sum - s.dx2 ≤ s.y2 then capOut cx cy flags s else []) := by
  unfold body capOut
  by_cases h : s.sum - s.dx2 ≤ s.y2 <;> simp [h]

theorem step_x (s : St) : (step s).x = s.x + 1 := by
  unfold step; split <;> rfl

theorem step_y (s : St) :
    (step s).y = if s.sum - s.dx2 ≤ s.y2 then s.y - 1 else s.y := by
  unfold step; split <;> rfl

theorem step_y_le (s : St) : (step s).y ≤ s.y := by
  rw [step_y]; split <;> omega

theorem bhLoop_zero (cx cy flags : Int) (s : St) : bhLoop cx cy flags 0 s = ([], s) := rfl

theorem bhLoop_succ_pos (cx cy flags : Int) (n : Nat) (s : St) (h : s.x ≤ s.y) :
    bhLoop cx cy flags (n + 1) s =
      ((s, (body cx cy flags s).1) :: (bhLoop cx cy flags n (step s)).1,
       (bhLoop cx cy flags n (step s)).2) := by
  simp [bhLoop, h, body_snd]

theorem bhLoop_neg (cx cy flags : Int) (n : Nat) (s : St) (h : ¬ s.x ≤ s.y) :
    bhLoop cx cy flags n s = ([], s) := by
  cases n with
  | zero => rfl
  | succ n => simp [bhLoop, h]

/-- The loop is left only when its guard is false: the budget `y - x + 1`
is never used up. -/
theorem bhLoop_exit (cx cy flags : Int) :
    ∀ (n : Nat) (s : St), (s.y - s.x + 1).toNat ≤ n →
      ¬ (bhLoop cx cy flags n s).2.x ≤ (bhLoop cx cy flags n s).2.y := by
  intro n
  induction n with
  | zero => intro s hn; simp only [bhLoop_zero]; omega
  | succ n ih =>
    intro s hn
    by_cases h : s.x ≤ s.y
    · rw [bhLoop_succ_pos _ _ _ _ _ h]
      apply ih
      have h1 := step_x s
      have h2 := step_y_le s
      omega
    · rw [bhLoop_neg _ _ _ _ _ h]; exact h

/-- A budget of at least `y - x + 1` iterations always gives the same run. -/
theorem bhLoop_budget (cx cy flags : Int) :
    ∀ (n m : Nat) (s : St), (s.y - s.x + 1).toNat ≤ n → (s.y - s.x + 1).toNat ≤ m →
      bhLoop cx cy flags n s = bhLoop cx cy flags m s := by
  intro n
  induction n with
  | zero =>
    intro m s hn _
    have h : ¬ s.x ≤ s.y := by omega
    rw [bhLoop_neg _ _ _ _ _ h, bhLoop_neg _ _ _ _ _ h]
  | succ n ih =>
    intro m s hn hm
    by_cases h : s.x ≤ s.y
    · cases m with
      | zero => omega
      | succ m =>
        have h1 := step_x s
        have h2 := step_y_le s
        rw [bhLoop_succ_pos _ _ _ _ _ h, bhLoop_succ_pos _ _ _ _ _ h,
          ih m (step s) (by omega) (by omega)]
    · rw [bhLoop_neg _ _ _ _ _ h, bhLoop_neg _ _ _ _ _ h]

/-- The defining equation of the `while` loop, for the run of `bh`. -/
theorem bhLoop_unfold (cx cy flags : Int) (n : Nat) (s : St)
    (hn : (s.y - s.x + 1).toNat ≤ n) :
    bhLoop cx cy flags n s =
      if s.x ≤ s.y then
        ((s, (body cx cy flags s).1) :: (bhLoop cx cy flags n (step s)).1,
         (bhLoop cx cy flags n (step s)).2)
      else ([], s) := by
  by_cases h : s.x ≤ s.y
  · rw [if_pos h]
    cases n with
    | zero => omega
    | succ n =>
      have h1 := step_x s
      have h2 := step_y_le s
      rw [bhLoop_succ_pos _ _ _ _ _ h,
        bhLoop_budget cx cy flags n (n + 1) (step s) (by omega) (by omega)]
  · rw [if_neg h, bhLoop_neg _ _ _ _ _ h]

/-- A property of the state that the loop body preserves holds at the top of
every iteration and on exit; every listed iteration passed the guard and
emitted what the loop body emits in its state. -/
theorem bhLoop_inv (cx cy flags : Int) (P : St → Prop)
    (hstep : ∀ s, P s → s.x ≤ s.y → P (step s)) :
    ∀ (n : Nat) (s : St), P s →
      (∀ it ∈ (bhLoop cx cy flags n s).1,
        P it.1 ∧ it.1.x ≤ it.1.y ∧ it.2 = (body cx cy flags it.1).1) ∧
      P (bhLoop cx cy flags n s).2 := by
  intro n
  induction n with
  | zero => intro s hs; simp [bhLoop_zero, hs]
  | succ n ih =>
    intro s hs
    by_cases h : s.x ≤ s.y
    · rw [bhLoop_succ_pos _ _ _ _ _ h]
      obtain ⟨h1, h2⟩ := ih (step s) (hstep s hs h)
      refine ⟨?_, h2⟩
      intro it hit
      rcases List.mem_cons.mp hit with rfl | hit
      · exact ⟨hs, h, rfl⟩
      · exact h1 it hit
    · rw [bhLoop_neg _ _ _ _ _ h]; simp [hs]

/-! ## Invariants of the loop -/

theorem inv_init (r : Int) : Inv r (init r) := by
  constructor <;> simp [init]

theorem inv_step (r : Int) (s : St) (h : Inv r s) : Inv r (step s) := by
  obtain ⟨h1, h2, h3, h4, h5⟩ := h
  unfold step
  split <;> constructor <;> simp only [h1, h2, h3, h4, h5] <;> ring

theorem geo_init (r : Int) (hr : 0 ≤ r) : Geo r (init r) := by
  constructor <;> simp only [init] <;> nlinarith

theorem geo_step (r : Int) (s : St) (hi : Inv r s) (hg : Geo r s) (hxy : s.x ≤ s.y) :
    Geo r (step s) := by
  obtain ⟨h1, h2, h3, h4, h5⟩ := hi
  obtain ⟨g1, g2, g3, g4⟩ := hg
  unfold step
  split
  · rename_i hc
    rw [h5, h3, h2, h1] at hc
    constructor <;> simp only <;> nlinarith
  · constructor <;> simp only <;> nlinarith

theorem band_init (r : Int) (hr : 1 ≤ r) : Band r (init r) := by
  constructor <;> simp only [init] <;> intro _ <;> nlinarith

theorem band_step (r : Int) (s : St) (hi : Inv r s) (hg : Geo r s) (hb : Band r s)
    (hxy : s.x ≤ s.y) : Band r (step s) := by
  obtain ⟨h1, h2, h3, h4, h5⟩ := hi
  obtain ⟨g1, g2, g3, g4⟩ := hg
  have b1 := hb.upper hxy
  have b2 := hb.inner hxy
  unfold step
  split
  · rename_i hc
    rw [h5, h3, h2, h1] at hc
    constructor <;> simp only <;> intro hxy2 <;> nlinarith
  · rename_i hc
    rw [h5, h3, h2, h1] at hc
    constructor <;> simp only <;> intro hxy2 <;> nlinarith

theorem full_init (r : Int) (hr : 1 ≤ r) : Full r (init r) :=
  ⟨inv_init r, geo_init r (by omega), band_init r hr⟩

theorem full_step (r : Int) (s : St) (h : Full r s) (hxy : s.x ≤ s.y) : Full r (step s) :=
  ⟨inv_step r s h.1, geo_step r s h.1 h.2.1 hxy, band_step r s h.1 h.2.1 h.2.2 hxy⟩

/-- The invariants at every iteration and at the exit of the run of `bh`. -/
theorem bhRun_full (r cx cy flags : Int) (hr : 1 ≤ r) :
    (∀ it ∈ bhIters r cx cy flags,
      Full r it.1 ∧ it.1.x ≤ it.1.y ∧ it.2 = (body cx cy flags it.1).1) ∧
    Full r (bhRun r cx cy flags).2 :=
  bhLoop_inv cx cy flags (Full r) (full_step r) _ _ (full_init r hr)

theorem bhRun_inv (r cx cy flags : Int) :
    (∀ it ∈ bhIters r cx cy flags,
      Inv r it.1 ∧ it.1.x ≤ it.1.y ∧ it.2 = (body cx cy flags it.1).1) ∧
    Inv r (bhRun r cx cy flags).2 :=
  bhLoop_inv cx cy flags (Inv r) (fun s h _ => inv_step r s h) _ _ (inv_init r)

/-! ## Shape of the run -/

theorem bhLoop_length_le (cx cy flags : Int) :
    ∀ (n : Nat) (s : St), (bhLoop cx cy flags n s).1.length ≤ n := by
  intro n
  induction n with
  | zero => intro s; simp [bhLoop_zero]
  | succ n ih =>
    intro s
    by_cases h : s.x ≤ s.y
    · rw [bhLoop_succ_pos _ _ _ _ _ h]
      have := ih (step s)
      simp only [List.length_cons]; omega
    · rw [bhLoop_neg _ _ _ _ _ h]; simp

theorem bhLoop_exit_x (cx cy flags : Int) :
    ∀ (n : Nat) (s : St),
      (bhLoop cx cy flags n s).2.x = s.x + ((bhLoop cx cy flags n s).1.length : Int) := by
  intro n
  induction n with
  | zero => intro s; simp [bhLoop_zero]
  | succ n ih =>
    intro s
    by_cases h : s.x ≤ s.y
    · rw [bhLoop_succ_pos _ _ _ _ _ h]
      have := ih (step s)
      rw [step_x] at this
      simp only [List.length_cons, Nat.cast_add, Nat.cast_one]; omega
    · rw [bhLoop_neg _ _ _ _ _ h]; simp

/-- Consecutive iterations: `x` goes up by one and `y` does not go up. -/
theorem bhLoop_chain (cx cy flags : Int) :
    ∀ (n : Nat) (s : St),
      List.Chain (fun a b : St × List Ev => b.1.x = a.1.x + 1 ∧ b.1.y ≤ a.1.y ∧ b.1 = step a.1)
        (s, (body cx cy flags s).1) (bhLoop cx cy flags n (step s)).1 := by
  intro n
  induction n with
  | zero => intro s; simp [bhLoop_zero]
  | succ n ih =>
    intro s
    by_cases h : (step s).x ≤ (step s).y
    · rw [bhLoop_succ_pos _ _ _ _ _ h]
      exact List.Chain.cons ⟨step_x s, step_y_le s, rfl⟩ (ih (step s))
    · rw [bhLoop_neg _ _ _ _ _ h]; exact List.Chain.nil

theorem bhLoop_chain' (cx cy flags : Int) (n : Nat) (s : St) :
    List.Chain' (fun a b : St × List Ev => b.1.x = a.1.x + 1 ∧ b.1.y ≤ a.1.y ∧ b.1 = step a.1)
      (bhLoop cx cy flags n s).1 := by
  cases n with
  | zero => simp [bhLoop_zero]
  | succ n =>
    by_cases h : s.x ≤ s.y
    · rw [bhLoop_succ_pos _ _ _ _ _ h]
      exact bhLoop_chain cx cy flags n s
    · rw [bhLoop_neg _ _ _ _ _ h]; simp

theorem bhLoop_head (cx cy flags : Int) (n : Nat) (s : St) :
    ∀ it ∈ (bhLoop cx cy flags n s).1.head?, it.1 = s := by
  cases n with
  | zero => simp [bhLoop_zero]
  | succ n =>
    by_cases h : s.x ≤ s.y
    · rw [bhLoop_succ_pos _ _ _ _ _ h]; simp
    · rw [bhLoop_neg _ _ _ _ _ h]; simp

theorem bhIters_length_pos (r cx cy flags : Int) (hr : 0 ≤ r) :
    0 < (bhIters r cx cy flags).length := by
  unfold bhIters bhRun
  obtain ⟨n, hn⟩ : ∃ n, (r + 1).toNat = n + 1 := ⟨r.toNat, by omega⟩
  rw [hn, bhLoop_succ_pos _ _ _ _ _ (by simpa [init] using hr)]
  simp

/-- The running total of the `dx2` values subtracted before each iteration. -/
theorem bhLoop_sum_before (cx cy flags : Int) :
    ∀ (n : Nat) (s : St) (pre post : List (St × List Ev)) (it : St × List Ev),
      (bhLoop cx cy flags n s).1 = pre ++ it :: post →
      it.1.sum = s.sum - (pre.map fun j => j.1.dx2).sum := by
  intro n
  induction n with
  | zero => intro s pre post it h; simp [bhLoop_zero] at h
  | succ n ih =>
    intro s pre post it h
    by_cases hg : s.x ≤ s.y
    · rw [bhLoop_succ_pos _ _ _ _ _ hg] at h
      cases pre with
      | nil =>
        simp only [List.nil_append, List.cons.injEq] at h
        simp [← h.1]
      | cons p pre =>
        simp only [List.cons_append, List.cons.injEq] at h
        have h2 := ih (step s) pre post it h.2
        have h3 : (step s).sum = s.sum - s.dx2 := by unfold step; split <;> rfl
        rw [h2, h3, ← h.1]
        simp only [List.map_cons, List.sum_cons]; ring
    · rw [bhLoop_neg _ _ _ _ _ hg] at h; simp at h

theorem bhLoop_sum_exit (cx cy flags : Int) :
    ∀ (n : Nat) (s : St),
      (bhLoop cx cy flags n s).2.sum =
        s.sum - ((bhLoop cx cy flags n s).1.map fun j => j.1.dx2).sum := by
  intro n
  induction n with
  | zero => intro s; simp [bhLoop_zero]
  | succ n ih =>
    intro s
    by_cases hg : s.x ≤ s.y
    · rw [bhLoop_succ_pos _ _ _ _ _ hg]
      have h3 : (step s).sum = s.sum - s.dx2 := by unfold step; split <;> rfl
      simp only [List.map_cons, List.sum_cons]
      rw [ih (step s), h3]; ring
    · rw [bhLoop_neg _ _ _ _ _ hg]; simp

/-- The exit state of the run: the guard is false and `x` counts the
iterations. -/
theorem bhRun_shape (r cx cy flags : Int) :
    (¬ (bhRun r cx cy flags).2.x ≤ (bhRun r cx cy flags).2.y) ∧
    (∀ it ∈ (bhIters r cx cy flags).head?, it.1 = init r) ∧
    List.Chain' (fun a b : St × List Ev => b.1.x = a.1.x + 1 ∧ b.1.y ≤ a.1.y ∧ b.1 = step a.1)
      (bhIters r cx cy flags) ∧
    (bhRun r cx cy flags).2.x = ((bhIters r cx cy flags).length : Int) ∧
    ((bhIters r cx cy flags).length ≤ (r + 1).toNat) := by
  refine ⟨?_, ?_, ?_, ?_, ?_⟩
  · exact bhLoop_exit cx cy flags _ _ (by simp [init])
  · exact bhLoop_head cx cy flags _ _
  · exact bhLoop_chain' cx cy flags _ _
  · have := bhLoop_exit_x cx cy flags (r + 1).toNat (init r)
    simpa [init, bhRun, bhIters] using this
  · exact bhLoop_length_le cx cy flags (r + 1).toNat (init r)

/-! ## Claims -/

/-- Run over the integers: for every radius `r >= 1`, in every loop iteration of `bh` the pair
`(x, y)` used for drawing satisfies `r*r - r < x*x + y*y < r*r + r`, that is
`(r - 1/2)^2 < x^2 + y^2 < (r + 1/2)^2` (stated with both sides multiplied
by 4). -/
theorem bh_points_in_band (r cx cy flags : Int) (hr : 1 ≤ r) :
    ∀ it ∈ bhIters r cx cy flags,
      it.2 = (body cx cy flags it.1).1 ∧
      (r * r - r < it.1.x * it.1.x + it.1.y * it.1.y ∧
        it.1.x * it.1.x + it.1.y * it.1.y < r * r + r) ∧
      ((2 * r - 1) ^ 2 < 4 * (it.1.x ^ 2 + it.1.y ^ 2) ∧
        4 * (it.1.x ^ 2 + it.1.y ^ 2) < (2 * r + 1) ^ 2) := by
  intro it hit
  obtain ⟨⟨_, _, hb⟩, hxy, hout⟩ := (bhRun_full r cx cy flags hr).1 it hit
  have h1 := hb.inner hxy
  have h2 := hb.upper hxy
  refine ⟨hout, ⟨h1, h2⟩, ?_, ?_⟩ <;> nlinarith

/-- Run over the integers: for every radius `r` the state starts as `x = 0, x2 = 0, dx2 = 1,
y = r, y2 = r*r, dy2 = 2r - 1, sum = r*r + r`; at the start of every loop
iteration and at loop exit `x2 = x*x`, `y2 = y*y`, `dx2 = 2x + 1`,
`dy2 = 2y - 1`, and `sum` is `r*r + r` minus the sum of the `dx2` values
subtracted so far, which is `r*r + r - x2`. -/
theorem bh_incremental_state (r cx cy flags : Int) :
    init r = { x := 0, x2 := 0, dx2 := 1, y := r, y2 := r * r, dy2 := 2 * r - 1,
               sum := r * r + r } ∧
    (∀ pre it post, bhIters r cx cy flags = pre ++ it :: post →
      it.1.x2 = it.1.x * it.1.x ∧ it.1.y2 = it.1.y * it.1.y ∧
      it.1.dx2 = 2 * it.1.x + 1 ∧ it.1.dy2 = 2 * it.1.y - 1 ∧
      it.1.sum = r * r + r - (pre.map fun j => j.1.dx2).sum ∧
      it.1.sum = r * r + r - it.1.x2) ∧
    ((bhRun r cx cy flags).2.x2 = (bhRun r cx cy flags).2.x * (bhRun r cx cy flags).2.x ∧
      (bhRun r cx cy flags).2.y2 = (bhRun r cx cy flags).2.y * (bhRun r cx cy flags).2.y ∧
      (bhRun r cx cy flags).2.dx2 = 2 * (bhRun r cx cy flags).2.x + 1 ∧
      (bhRun r cx cy flags).2.dy2 = 2 * (bhRun r cx cy flags).2.y - 1 ∧
      (bhRun r cx cy flags).2.sum =
        r * r + r - ((bhIters r cx cy flags).map fun j => j.1.dx2).sum ∧
      (bhRun r cx cy flags).2.sum = r * r + r - (bhRun r cx cy flags).2.x2) := by
  refine ⟨rfl, ?_, ?_⟩
  · intro pre it post h
    have hmem : it ∈ bhIters r cx cy flags := by rw [h]; simp
    obtain ⟨⟨h1, h2, h3, h4, h5⟩, _, _⟩ := (bhRun_inv r cx cy flags).1 it hmem
    have h6 := bhLoop_sum_before cx cy flags _ _ pre post it h
    exact ⟨h1, h2, h3, h4, by simpa [init] using h6, h5⟩
  · obtain ⟨h1, h2, h3, h4, h5⟩ := (bhRun_inv r cx cy flags).2
    have h6 := bhLoop_sum_exit cx cy flags (r + 1).toNat (init r)
    exact ⟨h1, h2, h3, h4, by simpa [init, bhRun, bhIters] using h6, h5⟩

/-! ## Cells marked in fill mode -/

theorem marked_nil (p q : Int) : ¬ marked [] p q := by
  simp [marked]

theorem marked_append (l₁ l₂ : List Ev) (p q : Int) :
    marked (l₁ ++ l₂) p q ↔ marked l₁ p q ∨ marked l₂ p q := by
  simp only [marked, List.mem_append]
  constructor
  · rintro ⟨e, he | he, hm⟩
    · exact Or.inl ⟨e, he, hm⟩
    · exact Or.inr ⟨e, he, hm⟩
  · rintro (⟨e, he, hm⟩ | ⟨e, he, hm⟩)
    · exact ⟨e, Or.inl he, hm⟩
    · exact ⟨e, Or.inr he, hm⟩

theorem evsOf_nil : evsOf [] = [] := rfl

theorem evsOf_cons (it : St × List Ev) (l : List (St × List Ev)) :
    evsOf (it :: l) = it.2 ++ evsOf l := by
  simp [evsOf]

theorem mem_evsOf (l : List (St × List Ev)) (e : Ev) :
    e ∈ evsOf l ↔ ∃ it ∈ l, e ∈ it.2 := by
  simp only [evsOf, List.mem_flatten, List.mem_map]
  constructor
  · rintro ⟨_, ⟨it, hit, rfl⟩, he⟩; exact ⟨it, hit, he⟩
  · rintro ⟨it, hit, he⟩; exact ⟨it.2, ⟨it, hit, rfl⟩, he⟩

theorem marked_pair_up (cx cy v w a b : Int) :
    marked [Ev.hline (cx - w) (cx + w) (cy + v), Ev.hline (cx - w) (cx + w) (cy - v)]
        (cx + a) (cy + b) ↔
      (b = v ∨ b = -v) ∧ -w ≤ a ∧ a ≤ w := by
  simp only [marked, List.mem_cons, List.mem_singleton, List.not_mem_nil, or_false]
  constructor
  · rintro ⟨e, rfl | rfl, hm⟩ <;> simp only [Ev.marks] at hm <;> omega
  · rintro ⟨hb | hb, h1, h2⟩
    · exact ⟨_, Or.inl rfl, by simp only [Ev.marks]; omega⟩
    · exact ⟨_, Or.inr rfl, by simp only [Ev.marks]; omega⟩

theorem marked_pair_down (cx cy v w a b : Int) :
    marked [Ev.hline (cx - w) (cx + w) (cy - v), Ev.hline (cx - w) (cx + w) (cy + v)]
        (cx + a) (cy + b) ↔
      (b = v ∨ b = -v) ∧ -w ≤ a ∧ a ≤ w := by
  simp only [marked, List.mem_cons, List.mem_singleton, List.not_mem_nil, or_false]
  constructor
  · rintro ⟨e, rfl | rfl, hm⟩ <;> simp only [Ev.marks] at hm <;> omega
  · rintro ⟨hb | hb, h1, h2⟩
    · exact ⟨_, Or.inr rfl, by simp only [Ev.marks]; omega⟩
    · exact ⟨_, Or.inl rfl, by simp only [Ev.marks]; omega⟩

/-- A symmetric span of half-width `w` on the rows `±v` is the part of the
disc `a*a + b*b < R` on these rows, when `w` is the largest half-width with
`v*v + w*w < R`. -/
theorem span_row (v w R a b : Int) (hv : 0 ≤ v) (hw : 0 ≤ w)
    (h1 : v * v + w * w < R) (h2 : R ≤ v * v + (w + 1) * (w + 1)) :
    ((b = v ∨ b = -v) ∧ -w ≤ a ∧ a ≤ w) ↔ (|b| = v ∧ a * a + b * b < R) := by
  have hb : (b = v ∨ b = -v) ↔ |b| = v := (abs_eq hv).symm
  rw [hb]
  constructor
  · rintro ⟨hbv, ha1, ha2⟩
    refine ⟨hbv, ?_⟩
    have hbb : b * b = v * v := by rw [← abs_mul_abs_self b, hbv]
    nlinarith [mul_nonneg (sub_nonneg.mpr ha2) (show (0 : Int) ≤ a + w by omega)]
  · rintro ⟨hbv, hq⟩
    refine ⟨hbv, ?_⟩
    have hbb : b * b = v * v := by rw [← abs_mul_abs_self b, hbv]
    constructor
    · by_contra hc
      push_neg at hc
      nlinarith [mul_nonneg (show (0 : Int) ≤ -a - (w + 1) by omega) (show (0 : Int) ≤ -a + (w + 1) by omega)]
    · by_contra hc
      push_neg at hc
      nlinarith [mul_nonneg (show (0 : Int) ≤ a - (w + 1) by omega) (show (0 : Int) ≤ a + (w + 1) by omega)]

theorem draw_fill (cx cy flags : Int) (s : St)
    (hf : flagSet flags FL_FILL = true) (ht : flagSet flags FL_TRACE = false) :
    draw cx cy flags s =
      [Ev.hline (cx - s.y) (cx + s.y) (cy + s.x), Ev.hline (cx - s.y) (cx + s.y) (cy - s.x)] := by
  simp [draw, hf, ht]

theorem capOut_fill (cx cy flags : Int) (s : St)
    (hf : flagSet flags FL_FILL = true) (ht : flagSet flags FL_TRACE = false) :
    capOut cx cy flags s =
      [Ev.hline (cx - s.x) (cx + s.x) (cy - s.y), Ev.hline (cx - s.x) (cx + s.x) (cy + s.y)] := by
  simp [capOut, hf, ht]

/-- In fill mode the segments emitted from a loop state on are the part of
the disc on the rows `b` with `x <= |b| <= y`. -/
theorem fill_loop_marked (r cx cy flags : Int)
    (hf : flagSet flags FL_FILL = true) (ht : flagSet flags FL_TRACE = false) :
    ∀ (n : Nat) (s : St), Full r s → (s.y - s.x + 1).toNat ≤ n → ∀ a b : Int,
      (marked (evsOf (bhLoop cx cy flags n s).1) (cx + a) (cy + b) ↔
        (s.x ≤ |b| ∧ |b| ≤ s.y ∧ a * a + b * b < r * r + r)) := by
  intro n
  induction n with
  | zero =>
    intro s _ hn a b
    simp only [bhLoop_zero, evsOf_nil]
    constructor
    · intro h; exact absurd h (marked_nil _ _)
    · rintro ⟨h1, h2, _⟩; omega
  | succ n ih =>
    intro s hs hn a b
    by_cases hg : s.x ≤ s.y
    · have hstep := full_step r s hs hg
      have hx := step_x s
      have hy := step_y s
      have hyle := step_y_le s
      have IH := ih (step s) hstep (by omega) a b
      obtain ⟨⟨h1, h2, h3, h4, h5⟩, ⟨g1, g2, g3, g4⟩, hb⟩ := hs
      have hup := hb.upper hg
      have hband := span_row s.x s.y (r * r + r) a b g1 (by omega) hup g4
      rw [bhLoop_succ_pos _ _ _ _ _ hg, evsOf_cons, marked_append, IH, body_fst,
        marked_append, draw_fill _ _ _ _ hf ht, marked_pair_up, hband, hx]
      by_cases hc : s.sum - s.dx2 ≤ s.y2
      · rw [if_pos hc, capOut_fill _ _ _ _ hf ht, marked_pair_down]
        rw [if_pos hc] at hy
        rw [h5, h3, h2, h1] at hc
        have hcap := span_row s.y s.x (r * r + r) a b (by omega) g1 (by nlinarith) (by nlinarith)
        rw [hcap, hy]
        constructor
        · rintro ((⟨e1, e2⟩ | ⟨e1, e2⟩) | ⟨e1, e2, e3⟩)
          · exact ⟨by omega, by omega, e2⟩
          · exact ⟨by omega, by omega, e2⟩
          · exact ⟨by omega, by omega, e3⟩
        · rintro ⟨e1, e2, e3⟩
          by_cases k1 : |b| = s.x
          · exact Or.inl (Or.inl ⟨k1, e3⟩)
          · by_cases k2 : |b| = s.y
            · exact Or.inl (Or.inr ⟨k2, e3⟩)
            · exact Or.inr ⟨by omega, by omega, e3⟩
      · rw [if_neg hc]
        rw [if_neg hc] at hy
        rw [hy]
        constructor
        · rintro ((⟨e1, e2⟩ | e0) | ⟨e1, e2, e3⟩)
          · exact ⟨by omega, by omega, e2⟩
          · exact absurd e0 (marked_nil _ _)
          · exact ⟨by omega, by omega, e3⟩
        · rintro ⟨e1, e2, e3⟩
          by_cases k1 : |b| = s.x
          · exact Or.inl (Or.inl ⟨k1, e3⟩)
          · exact Or.inr ⟨by omega, by omega, e3⟩
    · rw [bhLoop_neg _ _ _ _ _ hg, evsOf_nil]
      constructor
      · intro h; exact absurd h (marked_nil _ _)
      · rintro ⟨h1, h2, _⟩; omega

theorem bh_eq_evsOf (r cx cy flags : Int) : bh r cx cy flags = evsOf (bhIters r cx cy flags) := rfl

/-- Run over the integers: for every radius `r >= 1` and centre `(cx, cy)`, in fill mode the
cells covered by the `hline` calls of `bh` are exactly the cells
`(cx + a, cy + b)` with `a*a + b*b < r*r + r`; every primitive is a segment
`[cx - w, cx + w]` symmetric about `cx` on a row between `cy - r` and
`cy + r`, every such row is covered, the covered cells of a row form one
span without gap around `cx`, and for `r = 5`, centre `(10, 10)` the
half-widths are 5, 5, 5, 4, 3, 2 for the rows at distance 0..5. -/
theorem bh_fill_disc (r cx cy flags : Int) (hr : 1 ≤ r)
    (hf : flagSet flags FL_FILL = true) (ht : flagSet flags FL_TRACE = false) :
    (∀ p q : Int, marked (bh r cx cy flags) p q ↔
      (p - cx) * (p - cx) + (q - cy) * (q - cy) < r * r + r) ∧
    (∀ e ∈ bh r cx cy flags, ∃ w row : Int,
      e = Ev.hline (cx - w) (cx + w) row ∧ 0 ≤ w ∧ cy - r ≤ row ∧ row ≤ cy + r) ∧
    (∀ q : Int, cy - r ≤ q → q ≤ cy + r → marked (bh r cx cy flags) cx q) ∧
    (∀ p p' q : Int, marked (bh r cx cy flags) p q → |p' - cx| ≤ |p - cx| →
      marked (bh r cx cy flags) p' q) ∧
    bh 5 10 10 FL_FILL =
      [Ev.hline 5 15 10, Ev.hline 5 15 10, Ev.hline 5 15 11, Ev.hline 5 15 9,
       Ev.hline 5 15 12, Ev.hline 5 15 8, Ev.hline 8 12 5, Ev.hline 8 12 15,
       Ev.hline 6 14 13, Ev.hline 6 14 7, Ev.hline 7 13 6, Ev.hline 7 13 14] := by
  have key : ∀ p q : Int, marked (bh r cx cy flags) p q ↔
      (p - cx) * (p - cx) + (q - cy) * (q - cy) < r * r + r := by
    intro p q
    have h := fill_loop_marked r cx cy flags hf ht (r + 1).toNat (init r) (full_init r hr)
      (by simp [init]) (p - cx) (q - cy)
    rw [add_sub_cancel, add_sub_cancel] at h
    rw [bh_eq_evsOf, bhIters, bhRun, h]
    simp only [init]
    constructor
    · rintro ⟨_, _, h3⟩; exact h3
    · intro h3
      refine ⟨abs_nonneg _, ?_, h3⟩
      by_contra hc
      push_neg at hc
      have h4 : (q - cy) * (q - cy) = |q - cy| * |q - cy| := (abs_mul_abs_self _).symm
      nlinarith [mul_self_nonneg (p - cx)]
  refine ⟨key, ?_, ?_, ?_, by decide⟩
  · intro e he
    rw [bh_eq_evsOf, mem_evsOf] at he
    obtain ⟨it, hit, he⟩ := he
    obtain ⟨⟨_, ⟨g1, g2, _, _⟩, _⟩, hxy, hout⟩ := (bhRun_full r cx cy flags hr).1 it hit
    rw [hout, body_fst, draw_fill _ _ _ _ hf ht] at he
    by_cases hc : it.1.sum - it.1.dx2 ≤ it.1.y2
    · rw [if_pos hc, capOut_fill _ _ _ _ hf ht] at he
      simp only [List.mem_append, List.mem_cons, List.mem_singleton, List.not_mem_nil,
        or_false] at he
      rcases he with (rfl | rfl) | (rfl | rfl)
      · exact ⟨it.1.y, cy + it.1.x, rfl, by omega, by omega, by omega⟩
      · exact ⟨it.1.y, cy - it.1.x, rfl, by omega, by omega, by omega⟩
      · exact ⟨it.1.x, cy - it.1.y, rfl, by omega, by omega, by omega⟩
      · exact ⟨it.1.x, cy + it.1.y, rfl, by omega, by omega, by omega⟩
    · rw [if_neg hc] at he
      simp only [List.mem_append, List.mem_cons, List.mem_singleton, List.not_mem_nil,
        or_false] at he
      rcases he with rfl | rfl
      · exact ⟨it.1.y, cy + it.1.x, rfl, by omega, by omega, by omega⟩
      · exact ⟨it.1.y, cy - it.1.x, rfl, by omega, by omega, by omega⟩
  · intro q h1 h2
    rw [key]
    have h3 : -r ≤ q - cy := by omega
    have h4 : q - cy ≤ r := by omega
    nlinarith [mul_nonneg (sub_nonneg.mpr h4) (show (0 : Int) ≤ (q - cy) + r by omega)]
  · intro p p' q hm hle
    rw [key] at hm ⊢
    have h5 := mul_self_le_mul_self (abs_nonneg (p' - cx)) hle
    rw [abs_mul_abs_self, abs_mul_abs_self] at h5
    omega

/-! ## Outline mode -/

theorem marked_cons (e : Ev) (l : List Ev) (p q : Int) :
    marked (e :: l) p q ↔ e.marks p q ∨ marked l p q := by
  simp [marked]

theorem marked_evsOf (l : List (St × List Ev)) (p q : Int) :
    marked (evsOf l) p q ↔ ∃ it ∈ l, marked it.2 p q := by
  simp only [marked, mem_evsOf]
  constructor
  · rintro ⟨e, ⟨it, hit, he⟩, hm⟩; exact ⟨it, hit, e, he, hm⟩
  · rintro ⟨it, hit, e, he, hm⟩; exact ⟨e, ⟨it, hit, he⟩, hm⟩

theorem flagSet_zero_trace : flagSet 0 FL_TRACE = false := by decide

theorem flagSet_zero_fill : flagSet 0 FL_FILL = false := by decide

theorem body_outline (cx cy : Int) (s : St) :
    (body cx cy 0 s).1 =
      [Ev.dot (cx - s.y) (cy + s.x), Ev.dot (cx + s.y) (cy + s.x),
       Ev.dot (cx - s.y) (cy - s.x), Ev.dot (cx + s.y) (cy - s.x),
       Ev.dot (cx - s.x) (cy - s.y), Ev.dot (cx + s.x) (cy - s.y),
       Ev.dot (cx - s.x) (cy + s.y), Ev.dot (cx + s.x) (cy + s.y)] := by
  rw [body_fst]
  simp [draw, capOut, flagSet_zero_trace, flagSet_zero_fill]

/-- The cells plotted by one outline iteration, as offsets from the centre. -/
theorem marked_outline (cx cy : Int) (s : St) (p q : Int) :
    marked (body cx cy 0 s).1 p q ↔
      ((p - cx = -s.y ∨ p - cx = s.y) ∧ (q - cy = s.x ∨ q - cy = -s.x)) ∨
      ((p - cx = -s.x ∨ p - cx = s.x) ∧ (q - cy = s.y ∨ q - cy = -s.y)) := by
  rw [body_outline]
  simp only [marked_cons, Ev.marks, marked_nil, or_false]
  constructor
  · rintro (h | h | h | h | h | h | h | h) <;> omega
  · rintro (⟨h1 | h1, h2 | h2⟩ | ⟨h1 | h1, h2 | h2⟩)
    · exact Or.inl ⟨by omega, by omega⟩
    · exact Or.inr (Or.inr (Or.inl ⟨by omega, by omega⟩))
    · exact Or.inr (Or.inl ⟨by omega, by omega⟩)
    · exact Or.inr (Or.inr (Or.inr (Or.inl ⟨by omega, by omega⟩)))
    · exact Or.inr (Or.inr (Or.inr (Or.inr (Or.inr (Or.inr (Or.inl ⟨by omega, by omega⟩))))))
    · exact Or.inr (Or.inr (Or.inr (Or.inr (Or.inl ⟨by omega, by omega⟩))))
    · exact Or.inr (Or.inr (Or.inr (Or.inr (Or.inr (Or.inr (Or.inr ⟨by omega, by omega⟩))))))
    · exact Or.inr (Or.inr (Or.inr (Or.inr (Or.inr (Or.inl ⟨by omega, by omega⟩)))))

/-- Run over the integers: for every radius and centre, in outline mode each loop iteration of
`bh` with state `(x, y)` emits exactly the eight point-plots `(cx±y, cy±x)`
and `(cx±x, cy±y)`, and the set of plotted cells is invariant under
`(a, b) -> (-a, b)`, `(a, b) -> (a, -b)` and `(a, b) -> (b, a)` applied to
offsets from the centre (these generate the eight symmetries). -/
theorem bh_outline_symmetry (r cx cy : Int) :
    (∀ it ∈ bhIters r cx cy 0,
      it.2 =
        [Ev.dot (cx - it.1.y) (cy + it.1.x), Ev.dot (cx + it.1.y) (cy + it.1.x),
         Ev.dot (cx - it.1.y) (cy - it.1.x), Ev.dot (cx + it.1.y) (cy - it.1.x),
         Ev.dot (cx - it.1.x) (cy - it.1.y), Ev.dot (cx + it.1.x) (cy - it.1.y),
         Ev.dot (cx - it.1.x) (cy + it.1.y), Ev.dot (cx + it.1.x) (cy + it.1.y)]) ∧
    (∀ a b : Int, marked (bh r cx cy 0) (cx + a) (cy + b) →
      marked (bh r cx cy 0) (cx - a) (cy + b) ∧
      marked (bh r cx cy 0) (cx + a) (cy - b) ∧
      marked (bh r cx cy 0) (cx + b) (cy + a)) := by
  have hout : ∀ it ∈ bhIters r cx cy 0, it.2 = (body cx cy 0 it.1).1 :=
    fun it hit => ((bhRun_inv r cx cy 0).1 it hit).2.2
  refine ⟨fun it hit => by rw [hout it hit, body_outline], ?_⟩
  intro a b h
  rw [bh_eq_evsOf, marked_evsOf] at h
  obtain ⟨it, hit, hm⟩ := h
  rw [hout it hit, marked_outline] at hm
  simp only [bh_eq_evsOf, marked_evsOf]
  refine ⟨⟨it, hit, ?_⟩, ⟨it, hit, ?_⟩, ⟨it, hit, ?_⟩⟩ <;>
    rw [hout it hit, marked_outline] <;> omega

/-! ## Number of iterations -/

/-- On exit `x - 1` was the offset of the last iteration, which lay in the
band. -/
theorem exit_prev (r cx cy flags : Int) (hr : 1 ≤ r) :
    (bhRun r cx cy flags).2.x = 0 ∨
      2 * ((bhRun r cx cy flags).2.x - 1) * ((bhRun r cx cy flags).2.x - 1) < r * r + r := by
  have h := bhLoop_inv cx cy flags
    (fun s => Full r s ∧ (s.x = 0 ∨ 2 * (s.x - 1) * (s.x - 1) < r * r + r))
    (fun s hs hxy => by
      refine ⟨full_step r s hs.1 hxy, Or.inr ?_⟩
      have hup := hs.1.2.2.upper hxy
      have hx := hs.1.2.1.x_nonneg
      rw [step_x]
      nlinarith [mul_nonneg (sub_nonneg.mpr hxy) (show (0 : Int) ≤ s.y + s.x by omega)])
    (r + 1).toNat (init r) ⟨full_init r hr, Or.inl rfl⟩
  exact h.2.2

/-- Run over the integers: for every radius `r >= 1` the number `n` of
loop iterations of `bh` is `K + 1` where `K` is the largest integer with
`2*K*K < r*r + r`; it is one or two more than the largest `k` with
`2*k*k <= r*r`, that is `floor(r / sqrt 2) + 1` or `floor(r / sqrt 2) + 2`. -/
theorem bh_iteration_count (r cx cy flags : Int) (hr : 1 ≤ r) :
    1 ≤ ((bhIters r cx cy flags).length : Int) ∧
    2 * (((bhIters r cx cy flags).length : Int) - 1) *
        (((bhIters r cx cy flags).length : Int) - 1) < r * r + r ∧
    (∀ k : Int, 0 ≤ k → 2 * k * k < r * r + r →
      k ≤ ((bhIters r cx cy flags).length : Int) - 1) ∧
    (∀ k : Int, 0 ≤ k → 2 * k * k ≤ r * r → r * r < 2 * (k + 1) * (k + 1) →
      ((bhIters r cx cy flags).length : Int) = k + 1 ∨
      ((bhIters r cx cy flags).length : Int) = k + 2) := by
  have hpos : (1 : Int) ≤ ((bhIters r cx cy flags).length : Int) := by
    exact_mod_cast bhIters_length_pos r cx cy flags (by omega : 0 ≤ r)
  obtain ⟨hexit, -, -, hx, -⟩ := bhRun_shape r cx cy flags
  have hprev := exit_prev r cx cy flags hr
  obtain ⟨_, ⟨_, _, g3, g4⟩, _⟩ := (bhRun_full r cx cy flags hr).2
  generalize ((bhIters r cx cy flags).length : Int) = n at *
  generalize (bhRun r cx cy flags).2.y = y at *
  rw [hx] at hexit hprev g4
  have hn : 1 ≤ n := by omega
  have h1 : 2 * (n - 1) * (n - 1) < r * r + r := by
    rcases hprev with h | h
    · omega
    · exact h
  have h2 : r * r + r ≤ 2 * n * n := by
    nlinarith [mul_nonneg (show (0 : Int) ≤ n - (y + 1) by omega) (show (0 : Int) ≤ n + (y + 1) by omega)]
  refine ⟨hn, h1, ?_, ?_⟩
  · intro k hk hk2
    by_contra hc
    push_neg at hc
    nlinarith [mul_nonneg (show (0 : Int) ≤ k - n by omega) (show (0 : Int) ≤ k + n by omega)]
  · intro k hk hk1 hk2
    have a1 : k + 1 ≤ n := by
      by_contra hc
      push_neg at hc
      nlinarith [mul_nonneg (show (0 : Int) ≤ k - n by omega) (show (0 : Int) ≤ k + n by omega)]
    have a2 : r < 2 * (k + 1) := by
      by_contra hc
      push_neg at hc
      nlinarith [mul_nonneg (show (0 : Int) ≤ r - 2 * (k + 1) by omega) (show (0 : Int) ≤ r + 2 * (k + 1) by omega)]
    have a3 : n ≤ k + 2 := by
      by_contra hc
      push_neg at hc
      nlinarith [mul_nonneg (show (0 : Int) ≤ (n - 1) - (k + 2) by omega) (show (0 : Int) ≤ (n - 1) + (k + 2) by omega)]
    omega

/-- C5 as stated fails: for `r = 4` the loop of `bh` runs 4 times, in the
32-bit program as over the integers, while the largest `k` with
`2*k*k <= r*r` is 2, so `floor(r / sqrt 2) + 1 = 3`. -/
theorem floor_formula_counterexample :
    (1 : Int) ≤ 4 ∧ (bhIters 4 0 0 0).length = 4 ∧
    (¬ ∃ k : Nat, (2 * k * k ≤ 4 * 4 ∧ ∀ j : Nat, 2 * j * j ≤ 4 * 4 → j ≤ k) ∧
      (bhIters 4 0 0 0).length = k + 1) ∧
    (bhIters32 4 0 0 0).length = 4 ∧
    (¬ ∃ k : Nat, (2 * k * k ≤ 4 * 4 ∧ ∀ j : Nat, 2 * j * j ≤ 4 * 4 → j ≤ k) ∧
      (bhIters32 4 0 0 0).length = k + 1) := by
  refine ⟨by decide, by decide, ?_, by decide, ?_⟩
  · rintro ⟨k, ⟨hk, -⟩, hlen⟩
    have h4 : (bhIters 4 0 0 0).length = 4 := by decide
    have h3 : k = 3 := by omega
    subst h3
    omega
  · rintro ⟨k, ⟨hk, -⟩, hlen⟩
    have h4 : (bhIters32 4 0 0 0).length = 4 := by decide
    have h3 : k = 3 := by omega
    subst h3
    omega

/-! ## Trace mode -/

theorem mem_body_trace (cx cy flags : Int) (s : St) (x x2 dx2 y y2 dy2 sum : Int)
    (h : Ev.trace x x2 dx2 y y2 dy2 sum ∈ (body cx cy flags s).1) :
    x = s.x ∧ x2 = s.x2 ∧ dx2 = s.dx2 ∧ y = s.y ∧ y2 = s.y2 ∧ dy2 = s.dy2 ∧ sum = s.sum := by
  rw [body_fst] at h
  unfold draw capOut at h
  split_ifs at h <;> simp at h <;> simp [h]

/-- Run over the integers: in every loop iteration of `bh` the value of
`sum` that trace mode prints together with `x` is `r*r + r - x*x`; it agrees
with `r*r + r - (x + 1)*(x + 1) + 1` only in the iteration with `x = 0`. -/
theorem bh_trace_sum (r cx cy flags x x2 dx2 y y2 dy2 sum : Int)
    (h : Ev.trace x x2 dx2 y y2 dy2 sum ∈ bh r cx cy flags) :
    sum = r * r + r - x * x ∧
    (sum = r * r + r - (x + 1) * (x + 1) + 1 ↔ x = 0) := by
  rw [bh_eq_evsOf, mem_evsOf] at h
  obtain ⟨it, hit, he⟩ := h
  obtain ⟨⟨h1, _, _, _, h5⟩, _, hout⟩ := (bhRun_inv r cx cy flags).1 it hit
  rw [hout] at he
  obtain ⟨e1, -, -, -, -, -, e7⟩ := mem_body_trace cx cy flags it.1 x x2 dx2 y y2 dy2 sum he
  have hs : sum = r * r + r - x * x := by rw [e7, e1, h5, h1]
  refine ⟨hs, ?_⟩
  constructor
  · intro h2
    have : 2 * x = 0 := by nlinarith
    omega
  · intro h2
    rw [hs, h2]; ring

/-- C7 as stated fails: for `r = 3` the second trace line of `bh`, in the
32-bit program as over the integers, shows `x = 1` and `sum = 11`, while
`r*r + r - (x + 1)*(x + 1) + 1 = 9`. -/
theorem trace_closed_form_counterexample :
    (0 : Int) ≤ 3 ∧ Ev.trace 1 1 3 3 9 5 11 ∈ bh 3 0 0 FL_TRACE ∧
    (11 : Int) ≠ 3 * 3 + 3 - (1 + 1) * (1 + 1) + 1 ∧
    Ev.trace 1 1 3 3 9 5 11 ∈ bh32 3 0 0 FL_TRACE :=
  ⟨by decide, by decide, by decide, by decide⟩

/-- C10: for radius 0 and every centre, `bh` performs exactly one loop
iteration; in outline mode it emits exactly 8 point-plots, all at the centre;
in fill mode every segment it emits covers exactly the cell `(cx, cy)`. -/
theorem bh_radius_zero (cx cy : Int) :
    (∀ flags : Int, (bhIters 0 cx cy flags).length = 1) ∧
    bh 0 cx cy 0 = List.replicate 8 (Ev.dot cx cy) ∧
    bh 0 cx cy FL_FILL = List.replicate 4 (Ev.hline cx cx cy) ∧
    (∀ e ∈ bh 0 cx cy FL_FILL, ∀ p q : Int, e.marks p q ↔ (p = cx ∧ q = cy)) := by
  have hiters : ∀ flags : Int,
      bhIters 0 cx cy flags = [(init 0, (body cx cy flags (init 0)).1)] := by
    intro flags
    have h : (init 0).x ≤ (init 0).y := by decide
    show (bhLoop cx cy flags 1 (init 0)).1 = _
    rw [bhLoop_succ_pos _ _ _ _ _ h, bhLoop_zero]
  have hfill : bh 0 cx cy FL_FILL = List.replicate 4 (Ev.hline cx cx cy) := by
    rw [bh_eq_evsOf, hiters, evsOf_cons, evsOf_nil, body_fst,
      draw_fill _ _ _ _ (by decide) (by decide), capOut_fill _ _ _ _ (by decide) (by decide)]
    simp [init, List.replicate]
  refine ⟨fun flags => by rw [hiters]; rfl, ?_, hfill, ?_⟩
  · rw [bh_eq_evsOf, hiters, evsOf_cons, evsOf_nil, body_outline]
    simp [init, List.replicate]
  · intro e he p q
    rw [hfill] at he
    rw [List.eq_of_mem_replicate he]
    simp only [Ev.marks]
    constructor
    · rintro ⟨h1, h2, h3⟩; exact ⟨by omega, h1⟩
    · rintro ⟨h1, h2⟩; exact ⟨h2, by omega, by omega⟩

/-! ## Output of `hline` -/

theorem theLine_length : theLine.length = 369 := by
  rw [theLine, List.length_replicate]

theorem hline_out_long (x1 x2 y : Int) (hlen : 184 < x2 - x1 + 1) :
    hline x1 x2 y = cursorSeq y (2 * x1) ++ List.replicate 369 '*' := by
  have hp : ¬ shl1 (x2 - x1 + 1) < 0 := by unfold shl1; omega
  have hcol : shl1 x1 = 2 * x1 := by unfold shl1; ring
  unfold hline fmtPrecS theLine
  rw [if_neg hp, hcol, List.take_replicate]
  congr 2
  unfold shl1
  omega

/-- Within the buffer: for `x1 <= x2` with at most 184 logical columns,
`hline(x1, x2, y)` writes the cursor-position sequence for row `y` and
character column `2*x1`, followed by exactly `2*(x2 - x1 + 1)` stars. -/
theorem hline_within_buffer (x1 x2 y : Int) (h : x1 ≤ x2) (hlen : x2 - x1 + 1 ≤ 184) :
    hline x1 x2 y =
      (['\x1b', '['] ++ fmtD y ++ [';'] ++ fmtD (2 * x1) ++ ['H']) ++
        List.replicate (2 * (x2 - x1 + 1)).toNat '*' := by
  have hp : ¬ shl1 (x2 - x1 + 1) < 0 := by unfold shl1; omega
  have hcol : shl1 x1 = 2 * x1 := by unfold shl1; ring
  unfold hline fmtPrecS theLine cursorSeq
  rw [if_neg hp, hcol, List.take_replicate]
  congr 2
  unfold shl1
  omega

theorem bh_first_segment (r cx cy : Int) (hr : 0 ≤ r) :
    Ev.hline (cx - r) (cx + r) (cy + 0) ∈ bh r cx cy FL_FILL := by
  rw [bh_eq_evsOf, mem_evsOf]
  obtain ⟨n, hn⟩ : ∃ n, (r + 1).toNat = n + 1 := ⟨r.toNat, by omega⟩
  refine ⟨(init r, (body cx cy FL_FILL (init r)).1), ?_, ?_⟩
  · unfold bhIters bhRun
    rw [hn, bhLoop_succ_pos _ _ _ _ _ (by simpa [init] using hr)]
    exact List.mem_cons_self _ _
  · rw [body_fst, draw_fill _ _ _ _ (by decide) (by decide)]
    simp [init]

/-- C8 fails on the code for long segments: the first segment of
`bh(92, 100, 100, FL_FILL)` is `hline(8, 192, 100)`, 185 logical columns wide;
`hline` writes the cursor-position sequence and then only the 369 stars of
`theLine`, not `2 * 185 = 370`. -/
theorem hline_long_segment :
    Ev.hline (100 - 92) (100 + 92) (100 + 0) ∈ bh 92 100 100 FL_FILL ∧
    hline 8 192 100 = cursorSeq 100 (2 * 8) ++ List.replicate 369 '*' ∧
    (2 * ((192 : Int) - 8 + 1)).toNat = 370 ∧
    hline 8 192 100 ≠
      cursorSeq 100 (2 * 8) ++ List.replicate (2 * ((192 : Int) - 8 + 1)).toNat '*' := by
  have h1 := hline_out_long 8 192 100 (by decide)
  refine ⟨bh_first_segment 92 100 100 (by decide), h1, by decide, ?_⟩
  intro h
  rw [h1] at h
  have h2 := congrArg List.length (List.append_cancel_left h)
  simp only [List.length_replicate] at h2
  exact absurd h2 (by decide)

/-! ## Negative radius -/

/-- C11: for every radius `r < 0`, every centre and every flag word, the
guard `x <= y` is false on entry, so `bh` performs zero loop iterations and
emits nothing (no point, no segment, no trace line), whatever the iteration
budget; the loop is left in the initial state. -/
theorem bh_negative_radius (r cx cy flags : Int) (hr : r < 0) :
    (¬ (init r).x ≤ (init r).y) ∧
    bhIters r cx cy flags = [] ∧
    bh r cx cy flags = [] ∧
    (bhRun r cx cy flags).2 = init r ∧
    (∀ n : Nat, bhLoop cx cy flags n (init r) = ([], init r)) := by
  have hg : ¬ (init r).x ≤ (init r).y := by simp only [init]; omega
  have hrun : bhRun r cx cy flags = ([], init r) := bhLoop_neg _ _ _ _ _ hg
  refine ⟨hg, ?_, ?_, ?_, fun n => bhLoop_neg _ _ _ _ _ hg⟩
  · rw [bhIters, hrun]
  · rw [bh_eq_evsOf, bhIters, hrun]; rfl
  · rw [hrun]

theorem bh_negative_radius_witness :
    (-3 : Int) < 0 ∧ bh (-3) 40 12 FL_FILL = [] :=
  ⟨by decide, (bh_negative_radius (-3) 40 12 FL_FILL (by decide)).2.2.1⟩

/-! ## Translation of the centre -/

theorem body_shift (cx cy flags : Int) (s : St) :
    (body cx cy flags s).1 = (body 0 0 flags s).1.map (Ev.shift cx cy) := by
  rw [body_fst, body_fst]
  unfold draw capOut
  split_ifs <;> simp [Ev.shift] <;> omega

theorem bhLoop_shift (cx cy flags : Int) :
    ∀ (n : Nat) (s : St),
      bhLoop cx cy flags n s =
        ((bhLoop 0 0 flags n s).1.map fun it => (it.1, it.2.map (Ev.shift cx cy)),
         (bhLoop 0 0 flags n s).2) := by
  intro n
  induction n with
  | zero => intro s; rfl
  | succ n ih =>
    intro s
    by_cases h : s.x ≤ s.y
    · rw [bhLoop_succ_pos _ _ _ _ _ h, bhLoop_succ_pos _ _ _ _ _ h, ih (step s), body_shift]
      rfl
    · rw [bhLoop_neg _ _ _ _ _ h, bhLoop_neg _ _ _ _ _ h]; rfl

theorem evsOf_map (f : Ev → Ev) (l : List (St × List Ev)) :
    evsOf (l.map fun it => (it.1, it.2.map f)) = (evsOf l).map f := by
  induction l with
  | nil => rfl
  | cons a l ih => rw [List.map_cons, evsOf_cons, evsOf_cons, List.map_append, ih]

/-- Run over the integers: for every radius, centre and flag word (outline, fill or trace), the
ordered sequence of primitives that `bh` emits for the centre `(cx, cy)` is
the sequence it emits for the centre `(0, 0)` with every point `(a, b)`
replaced by `(a + cx, b + cy)` and every segment `(x1, x2, row)` by
`(x1 + cx, x2 + cx, row + cy)`; the loop states, the exit state and the
number of primitives are the same for both centres. -/
theorem bh_translation (r cx cy flags : Int) :
    bh r cx cy flags = (bh r 0 0 flags).map (Ev.shift cx cy) ∧
    (bhIters r cx cy flags).map Prod.fst = (bhIters r 0 0 flags).map Prod.fst ∧
    (bhIters r cx cy flags).length = (bhIters r 0 0 flags).length ∧
    (bhRun r cx cy flags).2 = (bhRun r 0 0 flags).2 ∧
    (bh r cx cy flags).length = (bh r 0 0 flags).length := by
  have h := bhLoop_shift cx cy flags (r + 1).toNat (init r)
  have hev : bh r cx cy flags = (bh r 0 0 flags).map (Ev.shift cx cy) := by
    rw [bh_eq_evsOf, bh_eq_evsOf, bhIters, bhRun, h, evsOf_map]; rfl
  refine ⟨hev, ?_, ?_, ?_, ?_⟩
  · rw [bhIters, bhRun, h, List.map_map]; rfl
  · rw [bhIters, bhRun, h, List.length_map]; rfl
  · rw [bhRun, h]; rfl
  · rw [hev, List.length_map]

/-! ## Where the primitives lie -/

/-- The primitives of one loop body, by kind: a trace line, a point at an
offset `(±y, ±x)` or `(±x, ±y)` from the centre, or a segment of half-width
`y` on a row `±x`, or of half-width `x` on a row `±y`. -/
theorem mem_body_cases (cx cy flags : Int) (s : St) (e : Ev) :
    e ∈ (body cx cy flags s).1 →
    (∃ a b c d f g k : Int, e = Ev.trace a b c d f g k) ∨
    (∃ a b : Int, e = Ev.dot (cx + a) (cy + b) ∧
      (((a = s.y ∨ a = -s.y) ∧ (b = s.x ∨ b = -s.x)) ∨
       ((a = s.x ∨ a = -s.x) ∧ (b = s.y ∨ b = -s.y)))) ∨
    (∃ w b : Int, e = Ev.hline (cx - w) (cx + w) (cy + b) ∧
      ((w = s.y ∧ (b = s.x ∨ b = -s.x)) ∨ (w = s.x ∧ (b = s.y ∨ b = -s.y)))) := by
  revert e
  have gt : ∀ a b c d f g k : Int,
      (∃ a' b' c' d' f' g' k' : Int, Ev.trace a b c d f g k = Ev.trace a' b' c' d' f' g' k') ∨
      (∃ a' b' : Int, Ev.trace a b c d f g k = Ev.dot (cx + a') (cy + b') ∧
        (((a' = s.y ∨ a' = -s.y) ∧ (b' = s.x ∨ b' = -s.x)) ∨
         ((a' = s.x ∨ a' = -s.x) ∧ (b' = s.y ∨ b' = -s.y)))) ∨
      (∃ w b' : Int, Ev.trace a b c d f g k = Ev.hline (cx - w) (cx + w) (cy + b') ∧
        ((w = s.y ∧ (b' = s.x ∨ b' = -s.x)) ∨ (w = s.x ∧ (b' = s.y ∨ b' = -s.y)))) :=
    fun a b c d f g k => Or.inl ⟨a, b, c, d, f, g, k, rfl⟩
  have gd : ∀ a b : Int, (((a = s.y ∨ a = -s.y) ∧ (b = s.x ∨ b = -s.x)) ∨
       ((a = s.x ∨ a = -s.x) ∧ (b = s.y ∨ b = -s.y))) →
      ((∃ a' b' c' d' f' g' k' : Int, Ev.dot (cx + a) (cy + b) = Ev.trace a' b' c' d' f' g' k') ∨
      (∃ a' b' : Int, Ev.dot (cx + a) (cy + b) = Ev.dot (cx + a') (cy + b') ∧
        (((a' = s.y ∨ a' = -s.y) ∧ (b' = s.x ∨ b' = -s.x)) ∨
         ((a' = s.x ∨ a' = -s.x) ∧ (b' = s.y ∨ b' = -s.y)))) ∨
      (∃ w b' : Int, Ev.dot (cx + a) (cy + b) = Ev.hline (cx - w) (cx + w) (cy + b') ∧
        ((w = s.y ∧ (b' = s.x ∨ b' = -s.x)) ∨ (w = s.x ∧ (b' = s.y ∨ b' = -s.y))))) :=
    fun a b hab => Or.inr (Or.inl ⟨a, b, rfl, hab⟩)
  have gh : ∀ w b : Int,
      ((w = s.y ∧ (b = s.x ∨ b = -s.x)) ∨ (w = s.x ∧ (b = s.y ∨ b = -s.y))) →
      ((∃ a' b' c' d' f' g' k' : Int,
          Ev.hline (cx + -w) (cx + w) (cy + b) = Ev.trace a' b' c' d' f' g' k') ∨
      (∃ a' b' : Int, Ev.hline (cx + -w) (cx + w) (cy + b) = Ev.dot (cx + a') (cy + b') ∧
        (((a' = s.y ∨ a' = -s.y) ∧ (b' = s.x ∨ b' = -s.x)) ∨
         ((a' = s.x ∨ a' = -s.x) ∧ (b' = s.y ∨ b' = -s.y)))) ∨
      (∃ w' b' : Int, Ev.hline (cx + -w) (cx + w) (cy + b) =
          Ev.hline (cx - w') (cx + w') (cy + b') ∧
        ((w' = s.y ∧ (b' = s.x ∨ b' = -s.x)) ∨ (w' = s.x ∧ (b' = s.y ∨ b' = -s.y))))) :=
    fun w b hwb => Or.inr (Or.inr ⟨w, b, by rw [sub_eq_add_neg], hwb⟩)
  rw [body_fst]
  unfold draw capOut
  split_ifs <;>
    simp only [List.forall_mem_append, List.forall_mem_cons, List.not_mem_nil,
      IsEmpty.forall_iff, implies_true, and_true, sub_eq_add_neg (a := cx),
      sub_eq_add_neg (a := cy)] <;>
    repeat' apply And.intro
  all_goals
    first
    | exact gt _ _ _ _ _ _ _
    | exact gd _ _ (by omega)
    | exact gh _ _ (by omega)

/-- For `r >= 0` every iteration of the run has `0 <= x <= y <= r`. -/
theorem bhRun_geo (r cx cy flags : Int) (hr : 0 ≤ r) :
    ∀ it ∈ bhIters r cx cy flags,
      (0 ≤ it.1.x ∧ it.1.x ≤ it.1.y ∧ it.1.y ≤ r) ∧ it.2 = (body cx cy flags it.1).1 := by
  intro it hit
  obtain ⟨⟨_, hg⟩, hxy, hout⟩ := (bhLoop_inv cx cy flags (fun s => Inv r s ∧ Geo r s)
    (fun s hs hxy => ⟨inv_step r s hs.1, geo_step r s hs.1 hs.2 hxy⟩)
    (r + 1).toNat (init r) ⟨inv_init r, geo_init r hr⟩).1 it hit
  exact ⟨⟨hg.x_nonneg, hxy, hg.y_le⟩, hout⟩

/-- Run over the integers: for every radius `r >= 0`, in every loop iteration of `bh`
`0 <= x <= y <= r` holds when the primitives are emitted; every plotted
point and every segment (each with `x1 <= x2` and of length `2y + 1` or
`2x + 1`) lies in the square `[cx - r, cx + r] x [cy - r, cy + r]`, and when
`r < cx` and `r < cy` the row and the character column `2*x` handed to the
cursor-position sequence are at least 1 and at least 2. -/
theorem bh_primitives_in_square (r cx cy flags : Int) (hr : 0 ≤ r) :
    (∀ it ∈ bhIters r cx cy flags,
      (0 ≤ it.1.x ∧ it.1.x ≤ it.1.y ∧ it.1.y ≤ r) ∧
      ∀ e ∈ it.2,
        (∀ p q : Int, e = Ev.dot p q →
          (cx - r ≤ p ∧ p ≤ cx + r ∧ cy - r ≤ q ∧ q ≤ cy + r) ∧
          (r < cx → r < cy →
            1 ≤ q ∧ 2 ≤ shl1 p ∧ dot p q = cursorSeq q (shl1 p) ++ ['*'])) ∧
        (∀ x1 x2 row : Int, e = Ev.hline x1 x2 row →
          (x1 ≤ x2 ∧
            (x2 - x1 + 1 = 2 * it.1.y + 1 ∨ x2 - x1 + 1 = 2 * it.1.x + 1) ∧
            cx - r ≤ x1 ∧ x2 ≤ cx + r ∧ cy - r ≤ row ∧ row ≤ cy + r) ∧
          (r < cx → r < cy →
            1 ≤ row ∧ 2 ≤ shl1 x1 ∧
            hline x1 x2 row =
              cursorSeq row (shl1 x1) ++ fmtPrecS (shl1 (x2 - x1 + 1)) theLine))) ∧
    (∀ p q : Int, marked (bh r cx cy flags) p q →
      cx - r ≤ p ∧ p ≤ cx + r ∧ cy - r ≤ q ∧ q ≤ cy + r) := by
  have main : ∀ it ∈ bhIters r cx cy flags,
      (0 ≤ it.1.x ∧ it.1.x ≤ it.1.y ∧ it.1.y ≤ r) ∧
      ∀ e ∈ it.2,
        (∀ p q : Int, e = Ev.dot p q →
          (cx - r ≤ p ∧ p ≤ cx + r ∧ cy - r ≤ q ∧ q ≤ cy + r) ∧
          (r < cx → r < cy →
            1 ≤ q ∧ 2 ≤ shl1 p ∧ dot p q = cursorSeq q (shl1 p) ++ ['*'])) ∧
        (∀ x1 x2 row : Int, e = Ev.hline x1 x2 row →
          (x1 ≤ x2 ∧
            (x2 - x1 + 1 = 2 * it.1.y + 1 ∨ x2 - x1 + 1 = 2 * it.1.x + 1) ∧
            cx - r ≤ x1 ∧ x2 ≤ cx + r ∧ cy - r ≤ row ∧ row ≤ cy + r) ∧
          (r < cx → r < cy →
            1 ≤ row ∧ 2 ≤ shl1 x1 ∧
            hline x1 x2 row =
              cursorSeq row (shl1 x1) ++ fmtPrecS (shl1 (x2 - x1 + 1)) theLine)) := by
    intro it hit
    obtain ⟨⟨h0, hxy, hyr⟩, hout⟩ := bhRun_geo r cx cy flags hr it hit
    refine ⟨⟨h0, hxy, hyr⟩, ?_⟩
    intro e he
    rw [hout] at he
    rcases mem_body_cases cx cy flags it.1 e he with
      ⟨a, b, c, d, f, g, k, rfl⟩ | ⟨a, b, rfl, hab⟩ | ⟨w, b, rfl, hwb⟩
    · exact ⟨fun p q h => (by cases h), fun x1 x2 row h => (by cases h)⟩
    · refine ⟨fun p q h => ?_, fun x1 x2 row h => (by cases h)⟩
      cases h
      exact ⟨⟨by omega, by omega, by omega, by omega⟩,
        fun h1 h2 => ⟨by omega, by unfold shl1; omega, rfl⟩⟩
    · refine ⟨fun p q h => (by cases h), fun x1 x2 row h => ?_⟩
      cases h
      exact ⟨⟨by omega, by omega, by omega, by omega, by omega, by omega⟩,
        fun h1 h2 => ⟨by omega, by unfold shl1; omega, rfl⟩⟩
  refine ⟨main, ?_⟩
  intro p q hm
  rw [bh_eq_evsOf, marked_evsOf] at hm
  obtain ⟨it, hit, e, he, hmk⟩ := hm
  obtain ⟨-, hall⟩ := main it hit
  obtain ⟨hd, hh⟩ := hall e he
  cases e with
  | dot a b =>
    obtain ⟨hb, -⟩ := hd a b rfl
    simp only [Ev.marks] at hmk
    omega
  | hline x1 x2 row =>
    obtain ⟨hb, -⟩ := hh x1 x2 row rfl
    simp only [Ev.marks] at hmk
    omega
  | trace a b c d f g k => exact absurd hmk (by simp [Ev.marks])

/-! ## Duplicate plots in outline mode -/

theorem bhLoop_xs (cx cy flags : Int) :
    ∀ (n : Nat) (s : St),
      (bhLoop cx cy flags n s).1.map (fun it => it.1.x) =
        (List.range (bhLoop cx cy flags n s).1.length).map (fun i : Nat => s.x + (i : Int)) := by
  intro n
  induction n with
  | zero => intro s; rfl
  | succ n ih =>
    intro s
    by_cases h : s.x ≤ s.y
    · rw [bhLoop_succ_pos _ _ _ _ _ h]
      simp only [List.map_cons, List.length_cons, List.range_succ_eq_map, List.map_map]
      rw [ih (step s), step_x]
      simp only [Nat.cast_zero, add_zero, List.cons.injEq, true_and]
      apply List.map_congr_left
      intro i _
      simp only [Function.comp, Nat.cast_succ]
      omega
    · rw [bhLoop_neg _ _ _ _ _ h]; rfl

/-- The number `n` of iterations lies between the two square roots:
`2*(n-1)^2 < r*r + r <= 2*n^2`. -/
theorem bhIters_length_bounds (r cx cy flags : Int) (hr : 1 ≤ r) :
    1 ≤ ((bhIters r cx cy flags).length : Int) ∧
    2 * (((bhIters r cx cy flags).length : Int) - 1) *
        (((bhIters r cx cy flags).length : Int) - 1) < r * r + r ∧
    r * r + r ≤ 2 * ((bhIters r cx cy flags).length : Int) *
        ((bhIters r cx cy flags).length : Int) := by
  have hpos : (1 : Int) ≤ ((bhIters r cx cy flags).length : Int) := by
    exact_mod_cast bhIters_length_pos r cx cy flags (by omega : 0 ≤ r)
  obtain ⟨hexit, -, -, hx, -⟩ := bhRun_shape r cx cy flags
  have hprev := exit_prev r cx cy flags hr
  obtain ⟨_, ⟨_, _, g3, g4⟩, _⟩ := (bhRun_full r cx cy flags hr).2
  generalize ((bhIters r cx cy flags).length : Int) = n at *
  generalize (bhRun r cx cy flags).2.y = y at *
  rw [hx] at hexit hprev g4
  refine ⟨hpos, ?_, ?_⟩
  · rcases hprev with h | h
    · omega
    · exact h
  · nlinarith [mul_nonneg (show (0 : Int) ≤ n - (y + 1) by omega) (show (0 : Int) ≤ n + (y + 1) by omega)]

/-- Run over the integers: for every radius `r >= 1`, the integers `x >= 0` with
`2*x*x < r*r + r` are exactly `0, 1, ..., n - 1` where `n` is the number of
loop iterations of `bh`, these are the values of `x` in the iterations in
order, and so `n` is the number of such integers; 4 iterations for `r = 4`
and 6 for `r = 7`. -/
theorem bh_iterations_enumerated (r cx cy flags : Int) (hr : 1 ≤ r) :
    (∀ x : Int, (0 ≤ x ∧ 2 * x * x < r * r + r) ↔
      (0 ≤ x ∧ x < ((bhIters r cx cy flags).length : Int))) ∧
    (bhIters r cx cy flags).map (fun it => it.1.x) =
      (List.range (bhIters r cx cy flags).length).map (fun i : Nat => (i : Int)) ∧
    ((Finset.range (r.toNat + 1)).filter
      (fun k : Nat => 2 * (k : Int) * (k : Int) < r * r + r)).card =
        (bhIters r cx cy flags).length ∧
    (bhIters 4 0 0 0).length = 4 ∧ (bhIters 7 0 0 0).length = 6 := by
  obtain ⟨h1, h2, h3⟩ := bhIters_length_bounds r cx cy flags hr
  have hle := (bhRun_shape r cx cy flags).2.2.2.2
  have key : ∀ x : Int, (0 ≤ x ∧ 2 * x * x < r * r + r) ↔
      (0 ≤ x ∧ x < ((bhIters r cx cy flags).length : Int)) := by
    intro x
    generalize ((bhIters r cx cy flags).length : Int) = n at *
    constructor
    · rintro ⟨hx0, hx⟩
      refine ⟨hx0, ?_⟩
      by_contra hc
      push_neg at hc
      nlinarith [mul_nonneg (show (0 : Int) ≤ x - n by omega) (show (0 : Int) ≤ x + n by omega)]
    · rintro ⟨hx0, hx⟩
      refine ⟨hx0, ?_⟩
      nlinarith [mul_nonneg (show (0 : Int) ≤ (n - 1) - x by omega) (show (0 : Int) ≤ (n - 1) + x by omega)]
  refine ⟨key, ?_, ?_, by decide, by decide⟩
  · have h := bhLoop_xs cx cy flags (r + 1).toNat (init r)
    simpa [init, bhIters, bhRun] using h
  · have hfil : (Finset.range (r.toNat + 1)).filter
        (fun k : Nat => 2 * (k : Int) * (k : Int) < r * r + r) =
        Finset.range (bhIters r cx cy flags).length := by
      ext k
      simp only [Finset.mem_filter, Finset.mem_range]
      have hk := key (k : Int)
      constructor
      · rintro ⟨-, hk2⟩
        have := (hk.mp ⟨by omega, hk2⟩).2
        omega
      · intro hk3
        have := (hk.mpr ⟨by omega, by omega⟩).2
        exact ⟨by omega, this⟩
    rw [hfil, Finset.card_range]

/-! ## 32-bit arithmetic -/

theorem wrap32_eq (a : Int) (h1 : -2147483648 ≤ a) (h2 : a ≤ 2147483647) : wrap32 a = a := by
  unfold wrap32; omega

theorem sq_le_small (r : Int) (h0 : 0 ≤ r) (h1 : r ≤ 46340) : r * r ≤ 2147395600 := by
  nlinarith

theorem inv_small_init (r : Int) (h0 : 0 ≤ r) :
    Inv r (init r) ∧ Geo r (init r) ∧ (1 ≤ r → Band r (init r)) :=
  ⟨inv_init r, geo_init r h0, fun h => band_init r h⟩

theorem inv_small_step (r : Int) (s : St)
    (h : Inv r s ∧ Geo r s ∧ (1 ≤ r → Band r s)) (hxy : s.x ≤ s.y) :
    Inv r (step s) ∧ Geo r (step s) ∧ (1 ≤ r → Band r (step s)) :=
  ⟨inv_step r s h.1, geo_step r s h.1 h.2.1 hxy,
   fun hr => band_step r s h.1 h.2.1 (h.2.2 hr) hxy⟩

/-- Inside the loop `(x + 1)^2 <= r^2 + 1`: the next `x2` stays small. -/
theorem next_sq_le (r : Int) (s : St) (h0 : 0 ≤ r)
    (h : Inv r s ∧ Geo r s ∧ (1 ≤ r → Band r s)) (hxy : s.x ≤ s.y) :
    (s.x + 1) * (s.x + 1) ≤ r * r + 1 := by
  obtain ⟨-, ⟨g1, g2, -, -⟩, hb⟩ := h
  rcases eq_or_lt_of_le h0 with h | h
  · have hx : s.x = 0 := by omega
    rw [hx, ← h]; decide
  · have hup := (hb (by omega)).upper hxy
    have hxr : s.x < r := by
      by_contra hc
      push_neg at hc
      nlinarith [mul_nonneg (show (0 : Int) ≤ s.x - r by omega) (show (0 : Int) ≤ s.x + r by omega),
        mul_nonneg (show (0 : Int) ≤ s.y - s.x by omega) (show (0 : Int) ≤ s.y + s.x by omega)]
    nlinarith [mul_nonneg (show (0 : Int) ≤ r - (s.x + 1) by omega) (show (0 : Int) ≤ r + (s.x + 1) by omega)]

/-- The numeric bounds that keep a state inside the `int` range. -/
theorem small_bounds (r : Int) (s : St) (h0 : 0 ≤ r) (h1 : r ≤ 46340)
    (hi : Inv r s) (hx0 : 0 ≤ s.x) (hxx : s.x * s.x ≤ r * r + 1)
    (hy0 : -1 ≤ s.y) (hy1 : s.y ≤ r) : s.inInt32 := by
  obtain ⟨e1, e2, e3, e4, e5⟩ := hi
  have hr2 := sq_le_small r h0 h1
  have hx2 : 0 ≤ s.x * s.x := mul_self_nonneg _
  have hy2 : 0 ≤ s.y * s.y := mul_self_nonneg _
  have hyy : s.y * s.y ≤ r * r + 1 := by
    rcases eq_or_lt_of_le hy0 with h | h
    · rw [← h]; nlinarith [mul_self_nonneg r]
    · nlinarith [mul_nonneg (show (0 : Int) ≤ r - s.y by omega) (show (0 : Int) ≤ r + s.y by omega)]
  have hxr : s.x ≤ r + 1 := by
    by_contra hc
    push_neg at hc
    nlinarith [mul_nonneg (show (0 : Int) ≤ s.x - (r + 2) by omega) (show (0 : Int) ≤ s.x + (r + 2) by omega)]
  unfold St.inInt32 Bresenham.inInt32
  rw [e5, e4, e3, e2, e1]
  refine ⟨⟨?_, ?_⟩, ⟨?_, ?_⟩, ⟨?_, ?_⟩, ⟨?_, ?_⟩, ⟨?_, ?_⟩, ⟨?_, ?_⟩, ⟨?_, ?_⟩⟩ <;> omega

theorem init32_eq (r : Int) (h0 : 0 ≤ r) (h1 : r ≤ 46340) : init32 r = init r := by
  have hr2 := sq_le_small r h0 h1
  have hr0 : 0 ≤ r * r := mul_self_nonneg r
  unfold init32 init
  have a1 : wrap32 (r * r) = r * r := wrap32_eq _ (by omega) (by omega)
  have a2 : wrap32 (r * r + r) = r * r + r := wrap32_eq _ (by omega) (by omega)
  have a3 : wrap32 (2 * r) = 2 * r := wrap32_eq _ (by omega) (by omega)
  have a4 : wrap32 (2 * r - 1) = 2 * r - 1 := wrap32_eq _ (by omega) (by omega)
  simp only [a1, a2, a3, a4]

/-- Inside the loop the 32-bit loop body leaves the same state as the loop
body over the integers. -/
theorem body32_snd (r cx cy flags : Int) (s : St) (h0 : 0 ≤ r) (h1 : r ≤ 46340)
    (h : Inv r s ∧ Geo r s ∧ (1 ≤ r → Band r s)) (hxy : s.x ≤ s.y) :
    (body32 cx cy flags s).2 = step s := by
  have hn := next_sq_le r s h0 h hxy
  obtain ⟨⟨e1, e2, e3, e4, e5⟩, ⟨g1, g2, g3, g4⟩, -⟩ := h
  have hr2 := sq_le_small r h0 h1
  have hx2 : 0 ≤ s.x * s.x := mul_self_nonneg _
  have hyy : s.y * s.y ≤ r * r := by
    nlinarith [mul_nonneg (show (0 : Int) ≤ r - s.y by omega) (show (0 : Int) ≤ r + s.y by omega)]
  have hy2 : 0 ≤ s.y * s.y := mul_self_nonneg _
  have hn' : s.x * s.x + 2 * s.x + 1 ≤ r * r + 1 := by linarith
  have a1 : wrap32 (s.sum - s.dx2) = s.sum - s.dx2 := by
    apply wrap32_eq <;> rw [e5, e3, e1] <;> omega
  have a2 : wrap32 (s.x + 1) = s.x + 1 := by apply wrap32_eq <;> omega
  have a3 : wrap32 (s.x2 + s.dx2) = s.x2 + s.dx2 := by
    apply wrap32_eq <;> rw [e3, e1] <;> omega
  have a4 : wrap32 (s.dx2 + 2) = s.dx2 + 2 := by apply wrap32_eq <;> rw [e3] <;> omega
  have a5 : wrap32 (s.y - 1) = s.y - 1 := by apply wrap32_eq <;> omega
  have a6 : wrap32 (s.y2 - s.dy2) = s.y2 - s.dy2 := by
    apply wrap32_eq <;> rw [e4, e2] <;> omega
  have a7 : wrap32 (s.dy2 - 2) = s.dy2 - 2 := by apply wrap32_eq <;> rw [e4] <;> omega
  unfold body32 step
  simp only [a1, a2, a3, a4, a5, a6, a7]
  split <;> rfl

/-- With the centre at distance more than `r` from the ends of the `int`
range the 32-bit loop body emits the same primitives. -/
theorem body32_fst (r cx cy flags : Int) (s : St) (h0 : 0 ≤ r) (h1 : r ≤ 46340)
    (h : Inv r s ∧ Geo r s ∧ (1 ≤ r → Band r s)) (hxy : s.x ≤ s.y)
    (c1 : -2147483648 + r ≤ cx) (c2 : cx ≤ 2147483647 - r)
    (c3 : -2147483648 + r ≤ cy) (c4 : cy ≤ 2147483647 - r) :
    (body32 cx cy flags s).1 = (body cx cy flags s).1 := by
  have hn := next_sq_le r s h0 h hxy
  obtain ⟨⟨e1, e2, e3, e4, e5⟩, ⟨g1, g2, g3, g4⟩, -⟩ := h
  have hr2 := sq_le_small r h0 h1
  have hx2 : 0 ≤ s.x * s.x := mul_self_nonneg _
  have hn' : s.x * s.x + 2 * s.x + 1 ≤ r * r + 1 := by linarith
  have a1 : wrap32 (s.sum - s.dx2) = s.sum - s.dx2 := by
    apply wrap32_eq <;> rw [e5, e3, e1] <;> omega
  have b1 : wrap32 (cx - s.y) = cx - s.y := by apply wrap32_eq <;> omega
  have b2 : wrap32 (cx + s.y) = cx + s.y := by apply wrap32_eq <;> omega
  have b3 : wrap32 (cy + s.x) = cy + s.x := by apply wrap32_eq <;> omega
  have b4 : wrap32 (cy - s.x) = cy - s.x := by apply wrap32_eq <;> omega
  have b5 : wrap32 (cx - s.x) = cx - s.x := by apply wrap32_eq <;> omega
  have b6 : wrap32 (cx + s.x) = cx + s.x := by apply wrap32_eq <;> omega
  have b7 : wrap32 (cy - s.y) = cy - s.y := by apply wrap32_eq <;> omega
  have b8 : wrap32 (cy + s.y) = cy + s.y := by apply wrap32_eq <;> omega
  unfold body32 body draw32 draw
  simp only [a1, b1, b2, b3, b4, b5, b6, b7, b8]
  split <;> rfl

theorem bhLoop32_succ_pos (cx cy flags : Int) (n : Nat) (s : St) (h : s.x ≤ s.y) :
    bhLoop32 cx cy flags (n + 1) s =
      ((s, (body32 cx cy flags s).1) :: (bhLoop32 cx cy flags n (body32 cx cy flags s).2).1,
       (bhLoop32 cx cy flags n (body32 cx cy flags s).2).2) := by
  simp [bhLoop32, h]

theorem bhLoop32_neg (cx cy flags : Int) (n : Nat) (s : St) (h : ¬ s.x ≤ s.y) :
    bhLoop32 cx cy flags n s = ([], s) := by
  cases n with
  | zero => rfl
  | succ n => simp [bhLoop32, h]

/-- For `0 <= r <= 46340` the 32-bit loop passes through the same states. -/
theorem bhLoop32_states (r cx cy flags : Int) (h0 : 0 ≤ r) (h1 : r ≤ 46340) :
    ∀ (n : Nat) (s : St), (Inv r s ∧ Geo r s ∧ (1 ≤ r → Band r s)) →
      (bhLoop32 cx cy flags n s).1.map Prod.fst = (bhLoop cx cy flags n s).1.map Prod.fst ∧
      (bhLoop32 cx cy flags n s).2 = (bhLoop cx cy flags n s).2 := by
  intro n
  induction n with
  | zero => intro s _; exact ⟨rfl, rfl⟩
  | succ n ih =>
    intro s hs
    by_cases h : s.x ≤ s.y
    · rw [bhLoop32_succ_pos _ _ _ _ _ h, bhLoop_succ_pos _ _ _ _ _ h,
        body32_snd r cx cy flags s h0 h1 hs h]
      obtain ⟨ih1, ih2⟩ := ih (step s) (inv_small_step r s hs h)
      exact ⟨by simp only [List.map_cons, ih1], ih2⟩
    · rw [bhLoop32_neg _ _ _ _ _ h, bhLoop_neg _ _ _ _ _ h]; exact ⟨rfl, rfl⟩

/-- For `0 <= r <= 46340` and a centre away from the ends of the `int` range
the 32-bit loop is the loop over the integers. -/
theorem bhLoop32_eq (r cx cy flags : Int) (h0 : 0 ≤ r) (h1 : r ≤ 46340)
    (c1 : -2147483648 + r ≤ cx) (c2 : cx ≤ 2147483647 - r)
    (c3 : -2147483648 + r ≤ cy) (c4 : cy ≤ 2147483647 - r) :
    ∀ (n : Nat) (s : St), (Inv r s ∧ Geo r s ∧ (1 ≤ r → Band r s)) →
      bhLoop32 cx cy flags n s = bhLoop cx cy flags n s := by
  intro n
  induction n with
  | zero => intro s _; rfl
  | succ n ih =>
    intro s hs
    by_cases h : s.x ≤ s.y
    · rw [bhLoop32_succ_pos _ _ _ _ _ h, bhLoop_succ_pos _ _ _ _ _ h,
        body32_snd r cx cy flags s h0 h1 hs h,
        body32_fst r cx cy flags s h0 h1 hs h c1 c2 c3 c4,
        ih (step s) (inv_small_step r s hs h)]
    · rw [bhLoop32_neg _ _ _ _ _ h, bhLoop_neg _ _ _ _ _ h]

/-- For `0 <= r <= 46340` every state of the run, the exit state included,
fits the `int` range. -/
theorem bhRun_small (r cx cy flags : Int) (h0 : 0 ≤ r) (h1 : r ≤ 46340) :
    (∀ it ∈ bhIters r cx cy flags, it.1.inInt32) ∧ (bhRun r cx cy flags).2.inInt32 := by
  have h := bhLoop_inv cx cy flags
    (fun s => (Inv r s ∧ Geo r s ∧ (1 ≤ r → Band r s)) ∧ s.x * s.x ≤ r * r + 1)
    (fun s hs hxy => by
      refine ⟨inv_small_step r s hs.1 hxy, ?_⟩
      rw [step_x]
      exact next_sq_le r s h0 hs.1 hxy)
    (r + 1).toNat (init r)
    ⟨inv_small_init r h0, by simp only [init]; nlinarith [mul_self_nonneg r]⟩
  have fin : ∀ s : St, ((Inv r s ∧ Geo r s ∧ (1 ≤ r → Band r s)) ∧ s.x * s.x ≤ r * r + 1) →
      s.inInt32 :=
    fun s hs => small_bounds r s h0 h1 hs.1.1 hs.1.2.1.x_nonneg hs.2 hs.1.2.1.y_ge hs.1.2.1.y_le
  exact ⟨fun it hit => fin it.1 (h.1 it hit).1, fin _ h.2⟩

/-- C15 (as the code behaves): for `0 <= r <= 46340` the products `r*r` and
`r*r + r` and every value of `x, x2, dx2, y, y2, dy2, sum` in the run of `bh`
fit a signed 32-bit `int`; the run with 32-bit wrap-around arithmetic has the
same initial state, passes through the same states and leaves the loop in the
same state, for every centre and every sufficient budget; it emits the same
primitives when `-2^31 + r <= cx, cy <= 2^31 - 1 - r`; and for `r = 46341`
the value `r*r + r` exceeds `2^31 - 1`. -/
theorem bh_int32 (r cx cy flags : Int) (h0 : 0 ≤ r) (h1 : r ≤ 46340) :
    (inInt32 (r * r) ∧ inInt32 (r * r + r) ∧ inInt32 (2 * r) ∧ inInt32 (2 * r - 1)) ∧
    (∀ it ∈ bhIters r cx cy flags, it.1.inInt32) ∧
    (bhRun r cx cy flags).2.inInt32 ∧
    init32 r = init r ∧
    (∀ n : Nat, (r + 1).toNat ≤ n →
      (bhRun32 n r cx cy flags).1.map Prod.fst = (bhIters r cx cy flags).map Prod.fst ∧
      (bhRun32 n r cx cy flags).2 = (bhRun r cx cy flags).2 ∧
      ¬ (bhRun32 n r cx cy flags).2.x ≤ (bhRun32 n r cx cy flags).2.y) ∧
    (-2147483648 + r ≤ cx → cx ≤ 2147483647 - r →
      -2147483648 + r ≤ cy → cy ≤ 2147483647 - r →
      ∀ n : Nat, (r + 1).toNat ≤ n →
        bhRun32 n r cx cy flags = bhRun r cx cy flags ∧
        evsOf (bhRun32 n r cx cy flags).1 = bh r cx cy flags) ∧
    ¬ inInt32 (46341 * 46341 + 46341) := by
  have hr2 := sq_le_small r h0 h1
  have hr0 : 0 ≤ r * r := mul_self_nonneg r
  obtain ⟨s1, s2⟩ := bhRun_small r cx cy flags h0 h1
  have hbud : ∀ n : Nat, (r + 1).toNat ≤ n →
      bhLoop cx cy flags n (init r) = bhRun r cx cy flags := fun n hn =>
    bhLoop_budget cx cy flags n (r + 1).toNat (init r) (by simpa [init] using hn)
      (by simp [init])
  refine ⟨?_, s1, s2, init32_eq r h0 h1, ?_, ?_, ?_⟩
  · unfold inInt32
    refine ⟨⟨?_, ?_⟩, ⟨?_, ?_⟩, ⟨?_, ?_⟩, ⟨?_, ?_⟩⟩ <;> omega
  · intro n hn
    obtain ⟨e1, e2⟩ := bhLoop32_states r cx cy flags h0 h1 n (init r) (inv_small_init r h0)
    have e3 : (bhRun32 n r cx cy flags).2 = (bhRun r cx cy flags).2 := by
      rw [bhRun32, init32_eq r h0 h1, e2, hbud n hn]
    refine ⟨?_, e3, ?_⟩
    · rw [bhRun32, init32_eq r h0 h1, e1, hbud n hn]; rfl
    · rw [e3]; exact (bhRun_shape r cx cy flags).1
  · intro c1 c2 c3 c4 n hn
    have e : bhRun32 n r cx cy flags = bhRun r cx cy flags := by
      rw [bhRun32, init32_eq r h0 h1,
        bhLoop32_eq r cx cy flags h0 h1 c1 c2 c3 c4 n (init r) (inv_small_init r h0), hbud n hn]
    exact ⟨e, by rw [e]; rfl⟩
  · unfold inInt32; omega

theorem bh_int32_witness :
    (0 : Int) ≤ 3 ∧ (3 : Int) ≤ 46340 ∧ bhRun32 4 3 10 10 FL_FILL = bhRun 3 10 10 FL_FILL :=
  ⟨by decide, by decide,
   ((bh_int32 3 10 10 FL_FILL (by decide) (by decide)).2.2.2.2.2.1
      (by decide) (by decide) (by decide) (by decide) 4 (by decide)).1⟩

/-- C15 as stated fails for a centre at the end of the `int` range: for
`r = 1`, `cx = 2^31 - 1` the 32-bit run plots `cx + y` at `-2^31`, the run
over the integers at `2^31`. -/
theorem bh_int32_centre_counterexample :
    (0 : Int) ≤ 1 ∧ (1 : Int) ≤ 46340 ∧
    ((-2147483648 : Int) ≤ 2147483647 ∧ (2147483647 : Int) ≤ 2147483647) ∧
    Ev.dot (-2147483648) 0 ∈ evsOf (bhRun32 2 1 2147483647 0 0).1 ∧
    Ev.dot 2147483648 0 ∈ bh 1 2147483647 0 0 ∧
    evsOf (bhRun32 2 1 2147483647 0 0).1 ≠ bh 1 2147483647 0 0 := by
  decide

/-! ## The 32-bit run: shape -/

theorem body32_step (cx cy flags : Int) (s : St) : (body32 cx cy flags s).2 = step32 s := by
  unfold body32 step32
  by_cases h : wrap32 (s.sum - s.dx2) ≤ s.y2 <;> simp [h]

theorem body32_out (cx cy flags : Int) (s : St) :
    (body32 cx cy flags s).1 =
      draw32 cx cy flags s ++
        (if wrap32 (s.sum - s.dx2) ≤ s.y2 then capOut32 cx cy flags s else []) := by
  unfold body32 capOut32
  by_cases h : wrap32 (s.sum - s.dx2) ≤ s.y2 <;> simp [h]

theorem bhLoop32_succ_step (cx cy flags : Int) (n : Nat) (s : St) (h : s.x ≤ s.y) :
    bhLoop32 cx cy flags (n + 1) s =
      ((s, (body32 cx cy flags s).1) :: (bhLoop32 cx cy flags n (step32 s)).1,
       (bhLoop32 cx cy flags n (step32 s)).2) := by
  rw [bhLoop32_succ_pos _ _ _ _ _ h, body32_step]

/-- Every listed iteration of the 32-bit loop passed the guard and emitted
what the 32-bit loop body emits in its state; a property of the state that
the body preserves holds throughout. -/
theorem bhLoop32_inv (cx cy flags : Int) (P : St → Prop)
    (hstep : ∀ s, P s → s.x ≤ s.y → P (step32 s)) :
    ∀ (n : Nat) (s : St), P s →
      (∀ it ∈ (bhLoop32 cx cy flags n s).1,
        P it.1 ∧ it.1.x ≤ it.1.y ∧ it.2 = (body32 cx cy flags it.1).1) ∧
      P (bhLoop32 cx cy flags n s).2 := by
  intro n
  induction n with
  | zero => intro s hs; exact ⟨fun it hit => absurd hit (List.not_mem_nil _), hs⟩
  | succ n ih =>
    intro s hs
    by_cases h : s.x ≤ s.y
    · rw [bhLoop32_succ_step _ _ _ _ _ h]
      obtain ⟨h1, h2⟩ := ih (step32 s) (hstep s hs h)
      refine ⟨?_, h2⟩
      intro it hit
      rcases List.mem_cons.mp hit with rfl | hit
      · exact ⟨hs, h, rfl⟩
      · exact h1 it hit
    · rw [bhLoop32_neg _ _ _ _ _ h]
      exact ⟨fun it hit => absurd hit (List.not_mem_nil _), hs⟩

/-- A larger budget only appends iterations. -/
theorem bhLoop32_mem_mono (cx cy flags : Int) :
    ∀ (n m : Nat) (s : St) (it : St × List Ev), n ≤ m →
      it ∈ (bhLoop32 cx cy flags n s).1 → it ∈ (bhLoop32 cx cy flags m s).1 := by
  intro n
  induction n with
  | zero => intro m s it _ h; exact absurd h (List.not_mem_nil _)
  | succ n ih =>
    intro m s it hnm h
    by_cases hg : s.x ≤ s.y
    · obtain ⟨m, rfl⟩ : ∃ k, m = k + 1 := ⟨m - 1, by omega⟩
      rw [bhLoop32_succ_step _ _ _ _ _ hg] at h ⊢
      rcases List.mem_cons.mp h with rfl | h
      · exact List.mem_cons_self _ _
      · exact List.mem_cons_of_mem _ (ih m (step32 s) it (by omega) h)
    · rw [bhLoop32_neg _ _ _ _ _ hg] at h; exact absurd h (List.not_mem_nil _)

theorem bhLoop32_length_mono (cx cy flags : Int) :
    ∀ (n m : Nat) (s : St), n ≤ m →
      (bhLoop32 cx cy flags n s).1.length ≤ (bhLoop32 cx cy flags m s).1.length := by
  intro n
  induction n with
  | zero => intro m s _; exact Nat.zero_le _
  | succ n ih =>
    intro m s hnm
    by_cases hg : s.x ≤ s.y
    · obtain ⟨m, rfl⟩ : ∃ k, m = k + 1 := ⟨m - 1, by omega⟩
      rw [bhLoop32_succ_step _ _ _ _ _ hg, bhLoop32_succ_step _ _ _ _ _ hg]
      simp only [List.length_cons]
      have := ih m (step32 s) (by omega)
      omega
    · rw [bhLoop32_neg _ _ _ _ _ hg]; exact Nat.zero_le _

/-- Bounds on `x` and `y` in the 32-bit run, for a radius below `2^31 - 1`. -/
theorem geo32_step (r : Int) (hr : r ≤ 2147483646) (s : St)
    (h : 0 ≤ s.x ∧ -1 ≤ s.y ∧ s.y ≤ r) (hxy : s.x ≤ s.y) :
    (0 ≤ (step32 s).x ∧ -1 ≤ (step32 s).y ∧ (step32 s).y ≤ r) ∧
    (step32 s).x = s.x + 1 ∧ (step32 s).y ≤ s.y := by
  obtain ⟨h1, h2, h3⟩ := h
  have a1 : wrap32 (s.x + 1) = s.x + 1 := wrap32_eq _ (by omega) (by omega)
  have a2 : wrap32 (s.y - 1) = s.y - 1 := wrap32_eq _ (by omega) (by omega)
  unfold step32
  by_cases hc : wrap32 (s.sum - s.dx2) ≤ s.y2
  · simp only [if_pos hc, a1, a2, true_and]; omega
  · simp only [if_neg hc, a1, true_and]; omega

/-- For `0 <= r <= 2^31 - 2` every iteration of the 32-bit run has
`0 <= x <= y <= r` and emits the primitives of the 32-bit loop body. -/
theorem bhIters32_geo (r cx cy flags : Int) (hr : r ≤ 2147483646) :
    ∀ it ∈ bhIters32 r cx cy flags,
      (0 ≤ it.1.x ∧ it.1.x ≤ it.1.y ∧ it.1.y ≤ r) ∧ it.2 = (body32 cx cy flags it.1).1 := by
  intro it hit
  by_cases h0 : 0 ≤ r
  · obtain ⟨⟨g1, -, g3⟩, hxy, hout⟩ := (bhLoop32_inv cx cy flags
      (fun s => 0 ≤ s.x ∧ -1 ≤ s.y ∧ s.y ≤ r)
      (fun s hs hxy => (geo32_step r hr s hs hxy).1)
      (r + 1).toNat (init32 r) ⟨le_refl _, by simp only [init32]; omega, le_refl _⟩).1 it hit
    exact ⟨⟨g1, hxy, g3⟩, hout⟩
  · have hg : ¬ (init32 r).x ≤ (init32 r).y := by simp only [init32]; omega
    rw [bhIters32, bhRun32, bhLoop32_neg _ _ _ _ _ hg] at hit
    exact absurd hit (List.not_mem_nil _)

/-- The 32-bit loop is left only when its guard is false, for a radius below
`2^31 - 1`: the budget `y - x + 1` is never used up. -/
theorem bhLoop32_exit (r cx cy flags : Int) (hr : r ≤ 2147483646) :
    ∀ (n : Nat) (s : St), (0 ≤ s.x ∧ -1 ≤ s.y ∧ s.y ≤ r) → (s.y - s.x + 1).toNat ≤ n →
      ¬ (bhLoop32 cx cy flags n s).2.x ≤ (bhLoop32 cx cy flags n s).2.y := by
  intro n
  induction n with
  | zero =>
    intro s _ hn
    show ¬ s.x ≤ s.y
    omega
  | succ n ih =>
    intro s hs hn
    by_cases h : s.x ≤ s.y
    · rw [bhLoop32_succ_step _ _ _ _ _ h]
      obtain ⟨g, gx, gy⟩ := geo32_step r hr s hs h
      exact ih (step32 s) g (by omega)
    · rw [bhLoop32_neg _ _ _ _ _ h]; exact h

theorem bhRun32_exit (r cx cy flags : Int) (h0 : 0 ≤ r) (hr : r ≤ 2147483646) :
    ¬ (bhRun32 (r + 1).toNat r cx cy flags).2.x ≤ (bhRun32 (r + 1).toNat r cx cy flags).2.y :=
  bhLoop32_exit r cx cy flags hr _ _ ⟨le_refl _, by simp only [init32]; omega, le_refl _⟩
    (by simp [init32])

/-! ## Transfer from the run over the integers, for `0 <= r <= 46340` -/

theorem bhIters32_states (r cx cy flags : Int) (h0 : 0 ≤ r) (h1 : r ≤ 46340) :
    (bhIters32 r cx cy flags).map Prod.fst = (bhIters r cx cy flags).map Prod.fst ∧
    (bhRun32 (r + 1).toNat r cx cy flags).2 = (bhRun r cx cy flags).2 := by
  have h := bhLoop32_states r cx cy flags h0 h1 (r + 1).toNat (init r) (inv_small_init r h0)
  rw [bhIters32, bhRun32, init32_eq r h0 h1]
  exact h

theorem bhIters32_length (r cx cy flags : Int) (h0 : 0 ≤ r) (h1 : r ≤ 46340) :
    (bhIters32 r cx cy flags).length = (bhIters r cx cy flags).length := by
  have h := congrArg List.length (bhIters32_states r cx cy flags h0 h1).1
  simpa using h

theorem bhIters32_state_mem (r cx cy flags : Int) (h0 : 0 ≤ r) (h1 : r ≤ 46340)
    (it : St × List Ev) (hit : it ∈ bhIters32 r cx cy flags) :
    ∃ it' ∈ bhIters r cx cy flags, it'.1 = it.1 := by
  have h : it.1 ∈ (bhIters32 r cx cy flags).map Prod.fst := List.mem_map_of_mem _ hit
  rw [(bhIters32_states r cx cy flags h0 h1).1, List.mem_map] at h
  exact h

theorem bhIters32_eq (r cx cy flags : Int) (h0 : 0 ≤ r) (h1 : r ≤ 46340)
    (c1 : -2147483648 + r ≤ cx) (c2 : cx ≤ 2147483647 - r)
    (c3 : -2147483648 + r ≤ cy) (c4 : cy ≤ 2147483647 - r) :
    bhIters32 r cx cy flags = bhIters r cx cy flags ∧ bh32 r cx cy flags = bh r cx cy flags := by
  have h : bhIters32 r cx cy flags = bhIters r cx cy flags := by
    rw [bhIters32, bhRun32, init32_eq r h0 h1,
      bhLoop32_eq r cx cy flags h0 h1 c1 c2 c3 c4 _ _ (inv_small_init r h0)]
    rfl
  exact ⟨h, by rw [bh32, h]; rfl⟩

/-! ## Claims on the 32-bit program -/

/-- C1 (as the code behaves): for every radius `1 <= r <= 46340`, in every
loop iteration of the 32-bit program the pair `(x, y)` used for drawing
satisfies `r*r - r < x*x + y*y < r*r + r`, that is
`(r - 1/2)^2 < x^2 + y^2 < (r + 1/2)^2` (both sides multiplied by 4). -/
theorem bh32_points_in_band (r cx cy flags : Int) (hr : 1 ≤ r) (hr' : r ≤ 46340) :
    ∀ it ∈ bhIters32 r cx cy flags,
      it.2 = (body32 cx cy flags it.1).1 ∧
      (r * r - r < it.1.x * it.1.x + it.1.y * it.1.y ∧
        it.1.x * it.1.x + it.1.y * it.1.y < r * r + r) ∧
      ((2 * r - 1) ^ 2 < 4 * (it.1.x ^ 2 + it.1.y ^ 2) ∧
        4 * (it.1.x ^ 2 + it.1.y ^ 2) < (2 * r + 1) ^ 2) := by
  intro it hit
  obtain ⟨it', hit', he⟩ := bhIters32_state_mem r cx cy flags (by omega) hr' it hit
  have h := (bh_points_in_band r cx cy flags hr it' hit').2
  rw [he] at h
  exact ⟨(bhIters32_geo r cx cy flags (by omega) it hit).2, h⟩

theorem bh32_points_in_band_witness :
    (1 : Int) ≤ 5 ∧ (5 : Int) ≤ 46340 ∧
    ((5 : Int) * 5 - 5 < 3 * 3 + 4 * 4 ∧ (3 : Int) * 3 + 4 * 4 < 5 * 5 + 5) :=
  ⟨by decide, by decide,
   (bh32_points_in_band 5 10 10 0 (by decide) (by decide)
      ({ x := 3, x2 := 9, dx2 := 7, y := 4, y2 := 16, dy2 := 7, sum := 21 },
       (body32 10 10 0 { x := 3, x2 := 9, dx2 := 7, y := 4, y2 := 16, dy2 := 7, sum := 21 }).1)
      (by decide)).2.1⟩

/-- C1 as stated fails from `r = 46341` on, where `r*r` no longer fits an
`int`: the 32-bit program reaches the iteration `x = 217, y = 46339`, and
`217^2 + 46339^2 = 2147350010` is below `r*r - r = 2147441940`. -/
theorem band_overflow_counterexample :
    (1 : Int) ≤ 46341 ∧
    ∃ it ∈ bhIters32 46341 0 0 FL_TRACE,
      it.1.x = 217 ∧ it.1.y = 46339 ∧
      ¬ ((46341 : Int) * 46341 - 46341 < it.1.x * it.1.x + it.1.y * it.1.y) := by
  refine ⟨by decide, ?_⟩
  have h : ∃ it ∈ (bhLoop32 0 0 FL_TRACE 218 (init32 46341)).1,
      it.1.x = 217 ∧ it.1.y = 46339 := by decide!
  obtain ⟨it, hit, hx, hy⟩ := h
  refine ⟨it, bhLoop32_mem_mono 0 0 FL_TRACE 218 _ _ it (by decide) hit, hx, hy, ?_⟩
  rw [hx, hy]
  decide

/-- C5 (as the code behaves): for every radius `1 <= r <= 46340` the number
`n` of loop iterations of the 32-bit program is `K + 1` where `K` is the
largest integer with `2*K*K < r*r + r`; it is one or two more than the
largest `k` with `2*k*k <= r*r`, that is `floor(r / sqrt 2) + 1` or
`floor(r / sqrt 2) + 2`. -/
theorem bh32_iteration_count (r cx cy flags : Int) (hr : 1 ≤ r) (hr' : r ≤ 46340) :
    1 ≤ ((bhIters32 r cx cy flags).length : Int) ∧
    2 * (((bhIters32 r cx cy flags).length : Int) - 1) *
        (((bhIters32 r cx cy flags).length : Int) - 1) < r * r + r ∧
    (∀ k : Int, 0 ≤ k → 2 * k * k < r * r + r →
      k ≤ ((bhIters32 r cx cy flags).length : Int) - 1) ∧
    (∀ k : Int, 0 ≤ k → 2 * k * k ≤ r * r → r * r < 2 * (k + 1) * (k + 1) →
      ((bhIters32 r cx cy flags).length : Int) = k + 1 ∨
      ((bhIters32 r cx cy flags).length : Int) = k + 2) := by
  rw [bhIters32_length r cx cy flags (by omega) hr']
  exact bh_iteration_count r cx cy flags hr

theorem bh32_iteration_count_witness :
    (1 : Int) ≤ 4 ∧ (4 : Int) ≤ 46340 ∧
    (((bhIters32 4 0 0 0).length : Int) = 2 + 1 ∨ ((bhIters32 4 0 0 0).length : Int) = 2 + 2) :=
  ⟨by decide, by decide,
   (bh32_iteration_count 4 0 0 0 (by decide) (by decide)).2.2.2 2
     (by decide) (by decide) (by decide)⟩

/-- C13 (as the code behaves): for every radius `1 <= r <= 46340`, the
integers `x >= 0` with `2*x*x < r*r + r` are exactly `0, 1, ..., n - 1` where
`n` is the number of loop iterations of the 32-bit program, these are the
values of `x` in the iterations in order, and so `n` is the number of such
integers; 4 iterations for `r = 4` and 6 for `r = 7`. -/
theorem bh32_iterations_enumerated (r cx cy flags : Int) (hr : 1 ≤ r) (hr' : r ≤ 46340) :
    (∀ x : Int, (0 ≤ x ∧ 2 * x * x < r * r + r) ↔
      (0 ≤ x ∧ x < ((bhIters32 r cx cy flags).length : Int))) ∧
    (bhIters32 r cx cy flags).map (fun it => it.1.x) =
      (List.range (bhIters32 r cx cy flags).length).map (fun i : Nat => (i : Int)) ∧
    ((Finset.range (r.toNat + 1)).filter
      (fun k : Nat => 2 * (k : Int) * (k : Int) < r * r + r)).card =
        (bhIters32 r cx cy flags).length ∧
    (bhIters32 4 0 0 0).length = 4 ∧ (bhIters32 7 0 0 0).length = 6 := by
  obtain ⟨h1, h2, h3, -, -⟩ := bh_iterations_enumerated r cx cy flags hr
  have hs := (bhIters32_states r cx cy flags (by omega) hr').1
  have hx : (bhIters32 r cx cy flags).map (fun it => it.1.x) =
      (bhIters r cx cy flags).map (fun it => it.1.x) := by
    have := congrArg (List.map St.x) hs
    simpa only [List.map_map] using this
  rw [bhIters32_length r cx cy flags (by omega) hr', hx]
  exact ⟨h1, h2, h3, by decide, by decide⟩

theorem bh32_iterations_enumerated_witness :
    (1 : Int) ≤ 7 ∧ (7 : Int) ≤ 46340 ∧
    ((0 ≤ (5 : Int) ∧ 2 * (5 : Int) * 5 < 7 * 7 + 7) ↔
      (0 ≤ (5 : Int) ∧ (5 : Int) < ((bhIters32 7 0 0 0).length : Int))) :=
  ⟨by decide, by decide, (bh32_iterations_enumerated 7 0 0 0 (by decide) (by decide)).1 5⟩

theorem init32_eq_abs (r : Int) (h0 : -46340 ≤ r) (h1 : r ≤ 46340) : init32 r = init r := by
  have hr2 : r * r ≤ 2147395600 := by
    nlinarith [mul_nonneg (show (0 : Int) ≤ 46340 - r by omega) (show (0 : Int) ≤ 46340 + r by omega)]
  have hr0 : 0 ≤ r * r := mul_self_nonneg r
  unfold init32 init
  have a1 : wrap32 (r * r) = r * r := wrap32_eq _ (by omega) (by omega)
  have a2 : wrap32 (r * r + r) = r * r + r := wrap32_eq _ (by omega) (by omega)
  have a3 : wrap32 (2 * r) = 2 * r := wrap32_eq _ (by omega) (by omega)
  have a4 : wrap32 (2 * r - 1) = 2 * r - 1 := wrap32_eq _ (by omega) (by omega)
  simp only [a1, a2, a3, a4]

/-- For `-46340 <= r <= 46340` the 32-bit run passes through the states of
the run over the integers and is left in the same state. -/
theorem bhIters32_states_abs (r cx cy flags : Int) (h0 : -46340 ≤ r) (h1 : r ≤ 46340) :
    (bhIters32 r cx cy flags).map Prod.fst = (bhIters r cx cy flags).map Prod.fst ∧
    (bhRun32 (r + 1).toNat r cx cy flags).2 = (bhRun r cx cy flags).2 := by
  by_cases hr : 0 ≤ r
  · exact bhIters32_states r cx cy flags hr h1
  · have hg : ¬ (init r).x ≤ (init r).y := by simp only [init]; omega
    rw [bhIters32, bhRun32, init32_eq_abs r h0 h1, bhLoop32_neg _ _ _ _ _ hg, bhIters, bhRun,
      bhLoop_neg _ _ _ _ _ hg]
    exact ⟨rfl, rfl⟩

/-- C6 (as the code behaves): for every radius `-46340 <= r <= 46340` the
32-bit program starts in the state `x = 0, x2 = 0, dx2 = 1, y = r,
y2 = r*r, dy2 = 2r - 1, sum = r*r + r`; at the start of every loop iteration
and at loop exit `x2 = x*x`, `y2 = y*y`, `dx2 = 2x + 1`, `dy2 = 2y - 1`, and
`sum` is `r*r + r` minus the sum of the `dx2` values subtracted so far, which
is `r*r + r - x2`. -/
theorem bh32_incremental_state (r cx cy flags : Int) (h0 : -46340 ≤ r) (h1 : r ≤ 46340) :
    init32 r = { x := 0, x2 := 0, dx2 := 1, y := r, y2 := r * r, dy2 := 2 * r - 1,
                 sum := r * r + r } ∧
    (∀ pre it post, bhIters32 r cx cy flags = pre ++ it :: post →
      it.1.x2 = it.1.x * it.1.x ∧ it.1.y2 = it.1.y * it.1.y ∧
      it.1.dx2 = 2 * it.1.x + 1 ∧ it.1.dy2 = 2 * it.1.y - 1 ∧
      it.1.sum = r * r + r - (pre.map fun j => j.1.dx2).sum ∧
      it.1.sum = r * r + r - it.1.x2) ∧
    ((bhRun32 (r + 1).toNat r cx cy flags).2.x2 =
        (bhRun32 (r + 1).toNat r cx cy flags).2.x * (bhRun32 (r + 1).toNat r cx cy flags).2.x ∧
      (bhRun32 (r + 1).toNat r cx cy flags).2.y2 =
        (bhRun32 (r + 1).toNat r cx cy flags).2.y * (bhRun32 (r + 1).toNat r cx cy flags).2.y ∧
      (bhRun32 (r + 1).toNat r cx cy flags).2.dx2 =
        2 * (bhRun32 (r + 1).toNat r cx cy flags).2.x + 1 ∧
      (bhRun32 (r + 1).toNat r cx cy flags).2.dy2 =
        2 * (bhRun32 (r + 1).toNat r cx cy flags).2.y - 1 ∧
      (bhRun32 (r + 1).toNat r cx cy flags).2.sum =
        r * r + r - ((bhIters32 r cx cy flags).map fun j => j.1.dx2).sum ∧
      (bhRun32 (r + 1).toNat r cx cy flags).2.sum =
        r * r + r - (bhRun32 (r + 1).toNat r cx cy flags).2.x2) := by
  obtain ⟨hs, hexit⟩ := bhIters32_states_abs r cx cy flags h0 h1
  obtain ⟨-, hiter, hex⟩ := bh_incremental_state r cx cy flags
  have hdx : ∀ l l' : List (St × List Ev), l.map Prod.fst = l'.map Prod.fst →
      (l.map fun j => j.1.dx2) = (l'.map fun j => j.1.dx2) := by
    intro l l' h
    have := congrArg (List.map St.dx2) h
    simpa only [List.map_map] using this
  refine ⟨by rw [init32_eq_abs r h0 h1]; rfl, ?_, ?_⟩
  · intro pre it post hdec
    have hm : (bhIters r cx cy flags).map Prod.fst =
        pre.map Prod.fst ++ it.1 :: post.map Prod.fst := by
      rw [← hs, hdec, List.map_append, List.map_cons]
    obtain ⟨l₁, l₂, hl, hl₁, hl₂⟩ := List.map_eq_append_iff.mp hm
    obtain ⟨it', l₃, hl₃, hit', -⟩ := List.map_eq_cons_iff.mp hl₂
    have h := hiter l₁ it' l₃ (by rw [hl, hl₃])
    rw [hit', hdx l₁ pre hl₁] at h
    exact h
  · rw [hexit, hdx _ _ hs]
    exact hex

theorem bh32_incremental_state_witness :
    (-46340 : Int) ≤ 3 ∧ (3 : Int) ≤ 46340 ∧
    bhIters32 3 0 0 FL_TRACE =
      [({ x := 0, x2 := 0, dx2 := 1, y := 3, y2 := 9, dy2 := 5, sum := 12 },
        [Ev.trace 0 0 1 3 9 5 12])] ++
      ({ x := 1, x2 := 1, dx2 := 3, y := 3, y2 := 9, dy2 := 5, sum := 11 },
        [Ev.trace 1 1 3 3 9 5 11]) ::
      [({ x := 2, x2 := 4, dx2 := 5, y := 2, y2 := 4, dy2 := 3, sum := 8 },
        [Ev.trace 2 4 5 2 4 3 8])] ∧
    (11 : Int) = 3 * 3 + 3 - ([(1 : Int)]).sum :=
  ⟨by decide, by decide, by decide,
   ((bh32_incremental_state 3 0 0 FL_TRACE (by decide) (by decide)).2.1
      [({ x := 0, x2 := 0, dx2 := 1, y := 3, y2 := 9, dy2 := 5, sum := 12 },
        [Ev.trace 0 0 1 3 9 5 12])]
      ({ x := 1, x2 := 1, dx2 := 3, y := 3, y2 := 9, dy2 := 5, sum := 11 },
        [Ev.trace 1 1 3 3 9 5 11])
      [({ x := 2, x2 := 4, dx2 := 5, y := 2, y2 := 4, dy2 := 3, sum := 8 },
        [Ev.trace 2 4 5 2 4 3 8])]
      (by decide)).2.2.2.2.1⟩

/-- C6 as stated fails from `|r| = 46341` on: the program's initial `y2` and
`sum` for `r = 46341` are `-2147479015` and `-2147432674`, not `r*r` and
`r*r + r`. -/
theorem init32_overflow_counterexample :
    (init32 46341).y2 = -2147479015 ∧ (init32 46341).sum = -2147432674 ∧
    (init32 46341).y2 ≠ 46341 * 46341 ∧ (init32 46341).sum ≠ 46341 * 46341 + 46341 ∧
    (init32 46341).y2 ≠ (init32 46341).y * (init32 46341).y := by
  decide

theorem mem_body32_trace (cx cy flags : Int) (s : St) (x x2 dx2 y y2 dy2 sum : Int)
    (h : Ev.trace x x2 dx2 y y2 dy2 sum ∈ (body32 cx cy flags s).1) :
    x = s.x ∧ x2 = s.x2 ∧ dx2 = s.dx2 ∧ y = s.y ∧ y2 = s.y2 ∧ dy2 = s.dy2 ∧ sum = s.sum := by
  rw [body32_out] at h
  unfold draw32 capOut32 at h
  split_ifs at h <;> simp at h <;> simp [h]

/-- C7 (as the code behaves): for every radius `0 <= r <= 46340`, in every
loop iteration of the 32-bit program the value of `sum` that trace mode
prints together with `x` is `r*r + r - x*x`; it agrees with
`r*r + r - (x + 1)*(x + 1) + 1` only in the iteration with `x = 0`. -/
theorem bh32_trace_sum (r cx cy flags x x2 dx2 y y2 dy2 sum : Int)
    (h0 : 0 ≤ r) (h1 : r ≤ 46340)
    (h : Ev.trace x x2 dx2 y y2 dy2 sum ∈ bh32 r cx cy flags) :
    sum = r * r + r - x * x ∧
    (sum = r * r + r - (x + 1) * (x + 1) + 1 ↔ x = 0) := by
  rw [bh32, mem_evsOf] at h
  obtain ⟨it, hit, he⟩ := h
  rw [(bhIters32_geo r cx cy flags (by omega) it hit).2] at he
  obtain ⟨e1, -, -, -, -, -, e7⟩ := mem_body32_trace cx cy flags it.1 x x2 dx2 y y2 dy2 sum he
  obtain ⟨it', hit', hst⟩ := bhIters32_state_mem r cx cy flags h0 h1 it hit
  obtain ⟨⟨i1, -, -, -, i5⟩, -, -⟩ := (bhRun_inv r cx cy flags).1 it' hit'
  rw [hst] at i1 i5
  have hs : sum = r * r + r - x * x := by rw [e7, e1, i5, i1]
  refine ⟨hs, ?_⟩
  constructor
  · intro h2
    have : 2 * x = 0 := by nlinarith
    omega
  · intro h2
    rw [hs, h2]; ring

theorem bh32_trace_sum_witness :
    (0 : Int) ≤ 3 ∧ (3 : Int) ≤ 46340 ∧
    Ev.trace 1 1 3 3 9 5 11 ∈ bh32 3 0 0 FL_TRACE ∧ (11 : Int) = 3 * 3 + 3 - 1 * 1 :=
  ⟨by decide, by decide, by decide,
   (bh32_trace_sum 3 0 0 FL_TRACE 1 1 3 3 9 5 11 (by decide) (by decide) (by decide)).1⟩

/-- C2 (as the code behaves): for every radius `1 <= r <= 46340` and every
centre with `-2^31 + r <= cx, cy <= 2^31 - 1 - r`, in fill mode the cells
covered by the `hline` calls of the 32-bit program are exactly the cells
`(cx + a, cy + b)` with `a*a + b*b < r*r + r`; every primitive is a segment
`[cx - w, cx + w]` symmetric about `cx` on a row between `cy - r` and
`cy + r`, every such row is covered, the covered cells of a row form one
span without gap around `cx`, and for `r = 5`, centre `(10, 10)` the
half-widths are 5, 5, 5, 4, 3, 2 for the rows at distance 0..5. -/
theorem bh32_fill_disc (r cx cy flags : Int) (hr : 1 ≤ r) (hr' : r ≤ 46340)
    (c1 : -2147483648 + r ≤ cx) (c2 : cx ≤ 2147483647 - r)
    (c3 : -2147483648 + r ≤ cy) (c4 : cy ≤ 2147483647 - r)
    (hf : flagSet flags FL_FILL = true) (ht : flagSet flags FL_TRACE = false) :
    (∀ p q : Int, marked (bh32 r cx cy flags) p q ↔
      (p - cx) * (p - cx) + (q - cy) * (q - cy) < r * r + r) ∧
    (∀ e ∈ bh32 r cx cy flags, ∃ w row : Int,
      e = Ev.hline (cx - w) (cx + w) row ∧ 0 ≤ w ∧ cy - r ≤ row ∧ row ≤ cy + r) ∧
    (∀ q : Int, cy - r ≤ q → q ≤ cy + r → marked (bh32 r cx cy flags) cx q) ∧
    (∀ p p' q : Int, marked (bh32 r cx cy flags) p q → |p' - cx| ≤ |p - cx| →
      marked (bh32 r cx cy flags) p' q) ∧
    bh32 5 10 10 FL_FILL =
      [Ev.hline 5 15 10, Ev.hline 5 15 10, Ev.hline 5 15 11, Ev.hline 5 15 9,
       Ev.hline 5 15 12, Ev.hline 5 15 8, Ev.hline 8 12 5, Ev.hline 8 12 15,
       Ev.hline 6 14 13, Ev.hline 6 14 7, Ev.hline 7 13 6, Ev.hline 7 13 14] := by
  obtain ⟨h1, h2, h3, h4, -⟩ := bh_fill_disc r cx cy flags hr hf ht
  rw [(bhIters32_eq r cx cy flags (by omega) hr' c1 c2 c3 c4).2]
  exact ⟨h1, h2, h3, h4, by decide⟩

theorem bh32_fill_disc_witness :
    (1 : Int) ≤ 5 ∧ (5 : Int) ≤ 46340 ∧
    ((-2147483648 : Int) + 5 ≤ 10 ∧ (10 : Int) ≤ 2147483647 - 5) ∧
    flagSet FL_FILL FL_FILL = true ∧ flagSet FL_FILL FL_TRACE = false ∧
    (marked (bh32 5 10 10 FL_FILL) 12 15 ↔
      ((12 : Int) - 10) * (12 - 10) + (15 - 10) * (15 - 10) < 5 * 5 + 5) :=
  ⟨by decide, by decide, by decide, by decide, by decide,
   (bh32_fill_disc 5 10 10 FL_FILL (by decide) (by decide) (by decide) (by decide)
      (by decide) (by decide) (by decide) (by decide)).1 12 15⟩

/-- C2 as stated fails for a centre at the end of the `int` range: for
`r = 1`, `cx = 2^31 - 1` the program's band segment runs from `cx - 1` to the
wrapped `cx + 1 = -2^31`, so the centre cell `(cx, cy)`, which lies in the
disc, is covered by no segment. -/
theorem fill_disc_wrap_counterexample :
    (1 : Int) ≤ 1 ∧ flagSet FL_FILL FL_FILL = true ∧ flagSet FL_FILL FL_TRACE = false ∧
    bh32 1 2147483647 0 FL_FILL =
      [Ev.hline 2147483646 (-2147483648) 0, Ev.hline 2147483646 (-2147483648) 0,
       Ev.hline 2147483647 2147483647 (-1), Ev.hline 2147483647 2147483647 1] ∧
    ((2147483647 : Int) - 2147483647) * (2147483647 - 2147483647) + ((0 : Int) - 0) * (0 - 0)
      < 1 * 1 + 1 ∧
    ¬ marked (bh32 1 2147483647 0 FL_FILL) 2147483647 0 := by
  have hl : bh32 1 2147483647 0 FL_FILL =
      [Ev.hline 2147483646 (-2147483648) 0, Ev.hline 2147483646 (-2147483648) 0,
       Ev.hline 2147483647 2147483647 (-1), Ev.hline 2147483647 2147483647 1] := by decide
  refine ⟨by decide, by decide, by decide, hl, by decide, ?_⟩
  rw [hl]
  simp [marked, Ev.marks]

/-! ## Primitives without wrap-around -/

/-- With `0 <= x <= y <= r` and the centre at distance more than `r` from
the ends of the `int` range, the coordinates of the primitives do not wrap. -/
theorem draw32_eq (r cx cy flags : Int) (s : St)
    (hx : 0 ≤ s.x) (hxy : s.x ≤ s.y) (hy : s.y ≤ r)
    (c1 : -2147483648 + r ≤ cx) (c2 : cx ≤ 2147483647 - r)
    (c3 : -2147483648 + r ≤ cy) (c4 : cy ≤ 2147483647 - r) :
    draw32 cx cy flags s = draw cx cy flags s ∧
    capOut32 cx cy flags s = capOut cx cy flags s := by
  have b1 : wrap32 (cx - s.y) = cx - s.y := by apply wrap32_eq <;> omega
  have b2 : wrap32 (cx + s.y) = cx + s.y := by apply wrap32_eq <;> omega
  have b3 : wrap32 (cy + s.x) = cy + s.x := by apply wrap32_eq <;> omega
  have b4 : wrap32 (cy - s.x) = cy - s.x := by apply wrap32_eq <;> omega
  have b5 : wrap32 (cx - s.x) = cx - s.x := by apply wrap32_eq <;> omega
  have b6 : wrap32 (cx + s.x) = cx + s.x := by apply wrap32_eq <;> omega
  have b7 : wrap32 (cy - s.y) = cy - s.y := by apply wrap32_eq <;> omega
  have b8 : wrap32 (cy + s.y) = cy + s.y := by apply wrap32_eq <;> omega
  unfold draw32 draw capOut32 capOut
  simp only [b1, b2, b3, b4, b5, b6, b7, b8, and_self]

theorem body32_out_eq (r cx cy flags : Int) (s : St)
    (hx : 0 ≤ s.x) (hxy : s.x ≤ s.y) (hy : s.y ≤ r)
    (c1 : -2147483648 + r ≤ cx) (c2 : cx ≤ 2147483647 - r)
    (c3 : -2147483648 + r ≤ cy) (c4 : cy ≤ 2147483647 - r) :
    (body32 cx cy flags s).1 =
      draw cx cy flags s ++
        (if wrap32 (s.sum - s.dx2) ≤ s.y2 then capOut cx cy flags s else []) := by
  obtain ⟨e1, e2⟩ := draw32_eq r cx cy flags s hx hxy hy c1 c2 c3 c4
  rw [body32_out, e1, e2]

theorem mem_draw_cap_cases (cx cy flags : Int) (s : St) (e : Ev) :
    e ∈ draw cx cy flags s ++ capOut cx cy flags s →
    (∃ a b c d f g k : Int, e = Ev.trace a b c d f g k) ∨
    (∃ a b : Int, e = Ev.dot (cx + a) (cy + b) ∧
      (((a = s.y ∨ a = -s.y) ∧ (b = s.x ∨ b = -s.x)) ∨
       ((a = s.x ∨ a = -s.x) ∧ (b = s.y ∨ b = -s.y)))) ∨
    (∃ w b : Int, e = Ev.hline (cx - w) (cx + w) (cy + b) ∧
      ((w = s.y ∧ (b = s.x ∨ b = -s.x)) ∨ (w = s.x ∧ (b = s.y ∨ b = -s.y)))) := by
  revert e
  have gt : ∀ a b c d f g k : Int,
      (∃ a' b' c' d' f' g' k' : Int, Ev.trace a b c d f g k = Ev.trace a' b' c' d' f' g' k') ∨
      (∃ a' b' : Int, Ev.trace a b c d f g k = Ev.dot (cx + a') (cy + b') ∧
        (((a' = s.y ∨ a' = -s.y) ∧ (b' = s.x ∨ b' = -s.x)) ∨
         ((a' = s.x ∨ a' = -s.x) ∧ (b' = s.y ∨ b' = -s.y)))) ∨
      (∃ w b' : Int, Ev.trace a b c d f g k = Ev.hline (cx - w) (cx + w) (cy + b') ∧
        ((w = s.y ∧ (b' = s.x ∨ b' = -s.x)) ∨ (w = s.x ∧ (b' = s.y ∨ b' = -s.y)))) :=
    fun a b c d f g k => Or.inl ⟨a, b, c, d, f, g, k, rfl⟩
  have gd : ∀ a b : Int, (((a = s.y ∨ a = -s.y) ∧ (b = s.x ∨ b = -s.x)) ∨
       ((a = s.x ∨ a = -s.x) ∧ (b = s.y ∨ b = -s.y))) →
      ((∃ a' b' c' d' f' g' k' : Int, Ev.dot (cx + a) (cy + b) = Ev.trace a' b' c' d' f' g' k') ∨
      (∃ a' b' : Int, Ev.dot (cx + a) (cy + b) = Ev.dot (cx + a') (cy + b') ∧
        (((a' = s.y ∨ a' = -s.y) ∧ (b' = s.x ∨ b' = -s.x)) ∨
         ((a' = s.x ∨ a' = -s.x) ∧ (b' = s.y ∨ b' = -s.y)))) ∨
      (∃ w b' : Int, Ev.dot (cx + a) (cy + b) = Ev.hline (cx - w) (cx + w) (cy + b') ∧
        ((w = s.y ∧ (b' = s.x ∨ b' = -s.x)) ∨ (w = s.x ∧ (b' = s.y ∨ b' = -s.y))))) :=
    fun a b hab => Or.inr (Or.inl ⟨a, b, rfl, hab⟩)
  have gh : ∀ w b : Int,
      ((w = s.y ∧ (b = s.x ∨ b = -s.x)) ∨ (w = s.x ∧ (b = s.y ∨ b = -s.y))) →
      ((∃ a' b' c' d' f' g' k' : Int,
          Ev.hline (cx + -w) (cx + w) (cy + b) = Ev.trace a' b' c' d' f' g' k') ∨
      (∃ a' b' : Int, Ev.hline (cx + -w) (cx + w) (cy + b) = Ev.dot (cx + a') (cy + b') ∧
        (((a' = s.y ∨ a' = -s.y) ∧ (b' = s.x ∨ b' = -s.x)) ∨
         ((a' = s.x ∨ a' = -s.x) ∧ (b' = s.y ∨ b' = -s.y)))) ∨
      (∃ w' b' : Int, Ev.hline (cx + -w) (cx + w) (cy + b) =
          Ev.hline (cx - w') (cx + w') (cy + b') ∧
        ((w' = s.y ∧ (b' = s.x ∨ b' = -s.x)) ∨ (w' = s.x ∧ (b' = s.y ∨ b' = -s.y))))) :=
    fun w b hwb => Or.inr (Or.inr ⟨w, b, by rw [sub_eq_add_neg], hwb⟩)
  unfold draw capOut
  split_ifs <;>
    simp only [List.forall_mem_append, List.forall_mem_cons, List.not_mem_nil,
      IsEmpty.forall_iff, implies_true, and_true, sub_eq_add_neg (a := cx),
      sub_eq_add_neg (a := cy)] <;>
    repeat' apply And.intro
  all_goals
    first
    | exact gt _ _ _ _ _ _ _
    | exact gd _ _ (by omega)
    | exact gh _ _ (by omega)

theorem mem_body32_cases (r cx cy flags : Int) (s : St) (e : Ev)
    (hx : 0 ≤ s.x) (hxy : s.x ≤ s.y) (hy : s.y ≤ r)
    (c1 : -2147483648 + r ≤ cx) (c2 : cx ≤ 2147483647 - r)
    (c3 : -2147483648 + r ≤ cy) (c4 : cy ≤ 2147483647 - r)
    (h : e ∈ (body32 cx cy flags s).1) :
    (∃ a b c d f g k : Int, e = Ev.trace a b c d f g k) ∨
    (∃ a b : Int, e = Ev.dot (cx + a) (cy + b) ∧
      (((a = s.y ∨ a = -s.y) ∧ (b = s.x ∨ b = -s.x)) ∨
       ((a = s.x ∨ a = -s.x) ∧ (b = s.y ∨ b = -s.y)))) ∨
    (∃ w b : Int, e = Ev.hline (cx - w) (cx + w) (cy + b) ∧
      ((w = s.y ∧ (b = s.x ∨ b = -s.x)) ∨ (w = s.x ∧ (b = s.y ∨ b = -s.y)))) := by
  rw [body32_out_eq r cx cy flags s hx hxy hy c1 c2 c3 c4] at h
  apply mem_draw_cap_cases cx cy flags s e
  rw [List.mem_append] at h ⊢
  rcases h with h | h
  · exact Or.inl h
  · split at h
    · exact Or.inr h
    · exact absurd h (List.not_mem_nil _)

theorem body32_outline (r cx cy : Int) (s : St)
    (hx : 0 ≤ s.x) (hxy : s.x ≤ s.y) (hy : s.y ≤ r)
    (c1 : -2147483648 + r ≤ cx) (c2 : cx ≤ 2147483647 - r)
    (c3 : -2147483648 + r ≤ cy) (c4 : cy ≤ 2147483647 - r) :
    (body32 cx cy 0 s).1 = (body cx cy 0 s).1 := by
  rw [body32_out_eq r cx cy 0 s hx hxy hy c1 c2 c3 c4, body_fst]
  have hc : capOut cx cy 0 s = [] := by
    simp [capOut, flagSet_zero_trace, flagSet_zero_fill]
  rw [hc]
  simp

/-- C3 (as the code behaves): for every radius `r <= 2^31 - 2` and every
centre with `-2^31 + r <= cx, cy <= 2^31 - 1 - r`, in outline mode each loop
iteration of the 32-bit program with state `(x, y)` emits exactly the eight
point-plots `(cx±y, cy±x)` and `(cx±x, cy±y)`, and the set of plotted cells
is invariant under `(a, b) -> (-a, b)`, `(a, b) -> (a, -b)` and
`(a, b) -> (b, a)` applied to offsets from the centre. -/
theorem bh32_outline_symmetry (r cx cy : Int) (hr : r ≤ 2147483646)
    (c1 : -2147483648 + r ≤ cx) (c2 : cx ≤ 2147483647 - r)
    (c3 : -2147483648 + r ≤ cy) (c4 : cy ≤ 2147483647 - r) :
    (∀ it ∈ bhIters32 r cx cy 0,
      it.2 =
        [Ev.dot (cx - it.1.y) (cy + it.1.x), Ev.dot (cx + it.1.y) (cy + it.1.x),
         Ev.dot (cx - it.1.y) (cy - it.1.x), Ev.dot (cx + it.1.y) (cy - it.1.x),
         Ev.dot (cx - it.1.x) (cy - it.1.y), Ev.dot (cx + it.1.x) (cy - it.1.y),
         Ev.dot (cx - it.1.x) (cy + it.1.y), Ev.dot (cx + it.1.x) (cy + it.1.y)]) ∧
    (∀ a b : Int, marked (bh32 r cx cy 0) (cx + a) (cy + b) →
      marked (bh32 r cx cy 0) (cx - a) (cy + b) ∧
      marked (bh32 r cx cy 0) (cx + a) (cy - b) ∧
      marked (bh32 r cx cy 0) (cx + b) (cy + a)) := by
  have hout : ∀ it ∈ bhIters32 r cx cy 0, it.2 = (body cx cy 0 it.1).1 := by
    intro it hit
    obtain ⟨⟨g1, g2, g3⟩, ho⟩ := bhIters32_geo r cx cy 0 hr it hit
    rw [ho, body32_outline r cx cy it.1 g1 g2 g3 c1 c2 c3 c4]
  refine ⟨fun it hit => by rw [hout it hit, body_outline], ?_⟩
  intro a b h
  rw [bh32, marked_evsOf] at h
  obtain ⟨it, hit, hm⟩ := h
  rw [hout it hit, marked_outline] at hm
  simp only [bh32, marked_evsOf]
  refine ⟨⟨it, hit, ?_⟩, ⟨it, hit, ?_⟩, ⟨it, hit, ?_⟩⟩ <;>
    rw [hout it hit, marked_outline] <;> omega

theorem bh32_outline_symmetry_witness :
    (2 : Int) ≤ 2147483646 ∧
    ((-2147483648 : Int) + 2 ≤ 7 ∧ (7 : Int) ≤ 2147483647 - 2) ∧
    ((-2147483648 : Int) + 2 ≤ 9 ∧ (9 : Int) ≤ 2147483647 - 2) ∧
    marked (bh32 2 7 9 0) (7 + 1) (9 + 2) ∧
    (marked (bh32 2 7 9 0) (7 - 1) (9 + 2) ∧
      marked (bh32 2 7 9 0) (7 + 1) (9 - 2) ∧
      marked (bh32 2 7 9 0) (7 + 2) (9 + 1)) :=
  ⟨by decide, by decide, by decide, ⟨Ev.dot 8 11, by decide, rfl, rfl⟩,
   (bh32_outline_symmetry 2 7 9 (by decide) (by decide) (by decide) (by decide) (by decide)).2
     1 2 ⟨Ev.dot 8 11, by decide, rfl, rfl⟩⟩

/-- C3 as stated fails for a centre at the end of the `int` range: for
`r = 1`, `cx = 2^31 - 1` the program plots `cx + y` at the wrapped column
`-2^31`, not at `cx + 1`; the cell `(cx - 1, cy)` is plotted and its mirror
image `(cx + 1, cy)` is not. -/
theorem outline_wrap_counterexample :
    bh32 1 2147483647 0 0 =
      [Ev.dot 2147483646 0, Ev.dot (-2147483648) 0, Ev.dot 2147483646 0,
       Ev.dot (-2147483648) 0, Ev.dot 2147483647 (-1), Ev.dot 2147483647 (-1),
       Ev.dot 2147483647 1, Ev.dot 2147483647 1] ∧
    Ev.dot (2147483647 + 1) (0 + 0) ∉ bh32 1 2147483647 0 0 ∧
    marked (bh32 1 2147483647 0 0) (2147483647 + -1) (0 + 0) ∧
    ¬ marked (bh32 1 2147483647 0 0) (2147483647 - -1) (0 + 0) := by
  have hl : bh32 1 2147483647 0 0 =
      [Ev.dot 2147483646 0, Ev.dot (-2147483648) 0, Ev.dot 2147483646 0,
       Ev.dot (-2147483648) 0, Ev.dot 2147483647 (-1), Ev.dot 2147483647 (-1),
       Ev.dot 2147483647 1, Ev.dot 2147483647 1] := by decide
  refine ⟨hl, by decide, ?_, ?_⟩
  · rw [hl]; exact ⟨Ev.dot 2147483646 0, by decide, by decide, by decide⟩
  · rw [hl]; simp [marked, Ev.marks]

/-! ## Translation of the centre, 32-bit -/

theorem draw_shift (cx cy flags : Int) (s : St) :
    draw cx cy flags s = (draw 0 0 flags s).map (Ev.shift cx cy) ∧
    capOut cx cy flags s = (capOut 0 0 flags s).map (Ev.shift cx cy) := by
  unfold draw capOut
  constructor <;> split_ifs <;> simp [Ev.shift] <;> omega

theorem body32_shift (r cx cy flags : Int) (s : St)
    (hx : 0 ≤ s.x) (hxy : s.x ≤ s.y) (hy : s.y ≤ r) (hr : r ≤ 2147483646)
    (c1 : -2147483648 + r ≤ cx) (c2 : cx ≤ 2147483647 - r)
    (c3 : -2147483648 + r ≤ cy) (c4 : cy ≤ 2147483647 - r) :
    (body32 cx cy flags s).1 = (body32 0 0 flags s).1.map (Ev.shift cx cy) := by
  obtain ⟨d1, d2⟩ := draw_shift cx cy flags s
  rw [body32_out_eq r cx cy flags s hx hxy hy c1 c2 c3 c4,
    body32_out_eq r 0 0 flags s hx hxy hy (by omega) (by omega) (by omega) (by omega),
    List.map_append, ← d1]
  split
  · rw [← d2]
  · rfl

theorem bhLoop32_shift (r cx cy flags : Int) (hr : r ≤ 2147483646)
    (c1 : -2147483648 + r ≤ cx) (c2 : cx ≤ 2147483647 - r)
    (c3 : -2147483648 + r ≤ cy) (c4 : cy ≤ 2147483647 - r) :
    ∀ (n : Nat) (s : St), (0 ≤ s.x ∧ -1 ≤ s.y ∧ s.y ≤ r) →
      bhLoop32 cx cy flags n s =
        ((bhLoop32 0 0 flags n s).1.map fun it => (it.1, it.2.map (Ev.shift cx cy)),
         (bhLoop32 0 0 flags n s).2) := by
  intro n
  induction n with
  | zero => intro s _; rfl
  | succ n ih =>
    intro s hs
    by_cases h : s.x ≤ s.y
    · rw [bhLoop32_succ_step _ _ _ _ _ h, bhLoop32_succ_step _ _ _ _ _ h,
        ih (step32 s) (geo32_step r hr s hs h).1,
        body32_shift r cx cy flags s hs.1 h hs.2.2 hr c1 c2 c3 c4]
      rfl
    · rw [bhLoop32_neg _ _ _ _ _ h, bhLoop32_neg _ _ _ _ _ h]; rfl

/-- The states of the 32-bit loop do not depend on the centre. -/
theorem bhLoop32_states_centre (cx cy cx' cy' flags : Int) :
    ∀ (n : Nat) (s : St),
      (bhLoop32 cx cy flags n s).1.map Prod.fst = (bhLoop32 cx' cy' flags n s).1.map Prod.fst ∧
      (bhLoop32 cx cy flags n s).2 = (bhLoop32 cx' cy' flags n s).2 := by
  intro n
  induction n with
  | zero => intro s; exact ⟨rfl, rfl⟩
  | succ n ih =>
    intro s
    by_cases h : s.x ≤ s.y
    · rw [bhLoop32_succ_step _ _ _ _ _ h, bhLoop32_succ_step _ _ _ _ _ h]
      obtain ⟨h1, h2⟩ := ih (step32 s)
      exact ⟨by simp only [List.map_cons, h1], h2⟩
    · rw [bhLoop32_neg _ _ _ _ _ h, bhLoop32_neg _ _ _ _ _ h]; exact ⟨rfl, rfl⟩

theorem body32_out_length (cx cy cx' cy' flags : Int) (s : St) :
    (body32 cx cy flags s).1.length = (body32 cx' cy' flags s).1.length := by
  rw [body32_out, body32_out]
  unfold draw32 capOut32
  split_ifs <;> rfl

theorem bhLoop32_evs_length (cx cy cx' cy' flags : Int) :
    ∀ (n : Nat) (s : St),
      (evsOf (bhLoop32 cx cy flags n s).1).length =
        (evsOf (bhLoop32 cx' cy' flags n s).1).length := by
  intro n
  induction n with
  | zero => intro s; rfl
  | succ n ih =>
    intro s
    by_cases h : s.x ≤ s.y
    · rw [bhLoop32_succ_step _ _ _ _ _ h, bhLoop32_succ_step _ _ _ _ _ h, evsOf_cons,
        evsOf_cons, List.length_append, List.length_append, ih (step32 s),
        body32_out_length cx cy cx' cy' flags s]
    · rw [bhLoop32_neg _ _ _ _ _ h, bhLoop32_neg _ _ _ _ _ h]

/-- C16 (as the code behaves): for every radius, centre and flag word the
loop states, the exit state, the number of iterations and the number of
primitives of the 32-bit program are those of the run for the centre
`(0, 0)`; for `r <= 2^31 - 2` and
`-2^31 + r <= cx, cy <= 2^31 - 1 - r` the ordered sequence of primitives is
the sequence for the centre `(0, 0)` with every point `(a, b)` replaced by
`(a + cx, b + cy)` and every segment `(x1, x2, row)` by
`(x1 + cx, x2 + cx, row + cy)`, and has the same length. -/
theorem bh32_translation (r cx cy flags : Int) :
    ((bhIters32 r cx cy flags).map Prod.fst = (bhIters32 r 0 0 flags).map Prod.fst ∧
      (bhIters32 r cx cy flags).length = (bhIters32 r 0 0 flags).length ∧
      (bhRun32 (r + 1).toNat r cx cy flags).2 = (bhRun32 (r + 1).toNat r 0 0 flags).2 ∧
      (bh32 r cx cy flags).length = (bh32 r 0 0 flags).length) ∧
    (r ≤ 2147483646 →
      -2147483648 + r ≤ cx → cx ≤ 2147483647 - r →
      -2147483648 + r ≤ cy → cy ≤ 2147483647 - r →
      bh32 r cx cy flags = (bh32 r 0 0 flags).map (Ev.shift cx cy) ∧
      (bh32 r cx cy flags).length = (bh32 r 0 0 flags).length) := by
  obtain ⟨s1, s2⟩ := bhLoop32_states_centre cx cy 0 0 flags (r + 1).toNat (init32 r)
  refine ⟨⟨s1, ?_, s2, bhLoop32_evs_length cx cy 0 0 flags _ _⟩, ?_⟩
  · have := congrArg List.length s1
    simpa only [List.length_map] using this
  · intro hr c1 c2 c3 c4
    have hev : bh32 r cx cy flags = (bh32 r 0 0 flags).map (Ev.shift cx cy) := by
      by_cases h0 : 0 ≤ r
      · have h := bhLoop32_shift r cx cy flags hr c1 c2 c3 c4 (r + 1).toNat (init32 r)
          ⟨le_refl _, by simp only [init32]; omega, le_refl _⟩
        rw [bh32, bh32, bhIters32, bhRun32, h, evsOf_map]; rfl
      · have hg : ¬ (init32 r).x ≤ (init32 r).y := by simp only [init32]; omega
        rw [bh32, bh32, bhIters32, bhIters32, bhRun32, bhRun32, bhLoop32_neg _ _ _ _ _ hg,
          bhLoop32_neg _ _ _ _ _ hg]
        rfl
    exact ⟨hev, by rw [hev, List.length_map]⟩

theorem bh32_translation_witness :
    (3 : Int) ≤ 2147483646 ∧
    ((-2147483648 : Int) + 3 ≤ 40 ∧ (40 : Int) ≤ 2147483647 - 3) ∧
    ((-2147483648 : Int) + 3 ≤ 12 ∧ (12 : Int) ≤ 2147483647 - 3) ∧
    bh32 3 40 12 FL_FILL = (bh32 3 0 0 FL_FILL).map (Ev.shift 40 12) :=
  ⟨by decide, by decide, by decide,
   ((bh32_translation 3 40 12 FL_FILL).2 (by decide) (by decide) (by decide)
      (by decide) (by decide)).1⟩

/-- C16 as stated fails for a centre at the end of the `int` range: for
`r = 1`, `cx = 2^31 - 1` the program plots the wrapped column `-2^31`, while
the plot of the run for centre `(0, 0)` moved by `cx` is at `2^31`. -/
theorem translation_wrap_counterexample :
    Ev.dot (-2147483648) 0 ∈ bh32 1 2147483647 0 0 ∧
    Ev.dot 2147483648 0 ∈ (bh32 1 0 0 0).map (Ev.shift 2147483647 0) ∧
    bh32 1 2147483647 0 0 ≠ (bh32 1 0 0 0).map (Ev.shift 2147483647 0) := by
  decide

/-! ## Where the primitives of the 32-bit program lie -/

/-- C14 (as the code behaves): for every radius `0 <= r <= 2^31 - 2`, in
every loop iteration of the 32-bit program `0 <= x <= y <= r` holds when the
primitives are emitted; when `-2^31 + r <= cx, cy <= 2^31 - 1 - r`, every
plotted point and every segment (each with `x1 <= x2` and of length `2y + 1`
or `2x + 1`) lies in the square `[cx - r, cx + r] x [cy - r, cy + r]`; and
when moreover `r < cx`, `r < cy` and `cx + r < 2^30`, the row and the
character column `x << 1` handed to the cursor-position sequence are at
least 1 and at least 2. -/
theorem bh32_primitives_in_square (r cx cy flags : Int) (hr0 : 0 ≤ r) (hr : r ≤ 2147483646) :
    (∀ it ∈ bhIters32 r cx cy flags, 0 ≤ it.1.x ∧ it.1.x ≤ it.1.y ∧ it.1.y ≤ r) ∧
    (-2147483648 + r ≤ cx → cx ≤ 2147483647 - r →
     -2147483648 + r ≤ cy → cy ≤ 2147483647 - r →
      (∀ it ∈ bhIters32 r cx cy flags, ∀ e ∈ it.2,
        (∀ p q : Int, e = Ev.dot p q →
          (cx - r ≤ p ∧ p ≤ cx + r ∧ cy - r ≤ q ∧ q ≤ cy + r) ∧
          (r < cx → r < cy → cx + r < 1073741824 →
            1 ≤ q ∧ 2 ≤ shl32 p ∧ dot32 p q = cursorSeq q (shl32 p) ++ ['*'])) ∧
        (∀ x1 x2 row : Int, e = Ev.hline x1 x2 row →
          (x1 ≤ x2 ∧
            (x2 - x1 + 1 = 2 * it.1.y + 1 ∨ x2 - x1 + 1 = 2 * it.1.x + 1) ∧
            cx - r ≤ x1 ∧ x2 ≤ cx + r ∧ cy - r ≤ row ∧ row ≤ cy + r) ∧
          (r < cx → r < cy → cx + r < 1073741824 →
            1 ≤ row ∧ 2 ≤ shl32 x1 ∧
            hline32 x1 x2 row =
              cursorSeq row (shl32 x1) ++
                fmtPrecS (shl32 (wrap32 (wrap32 (x2 - x1) + 1))) theLine))) ∧
      (∀ p q : Int, marked (bh32 r cx cy flags) p q →
        cx - r ≤ p ∧ p ≤ cx + r ∧ cy - r ≤ q ∧ q ≤ cy + r)) := by
  have hgeo := bhIters32_geo r cx cy flags hr
  refine ⟨fun it hit => (hgeo it hit).1, ?_⟩
  intro c1 c2 c3 c4
  have main : ∀ it ∈ bhIters32 r cx cy flags, ∀ e ∈ it.2,
        (∀ p q : Int, e = Ev.dot p q →
          (cx - r ≤ p ∧ p ≤ cx + r ∧ cy - r ≤ q ∧ q ≤ cy + r) ∧
          (r < cx → r < cy → cx + r < 1073741824 →
            1 ≤ q ∧ 2 ≤ shl32 p ∧ dot32 p q = cursorSeq q (shl32 p) ++ ['*'])) ∧
        (∀ x1 x2 row : Int, e = Ev.hline x1 x2 row →
          (x1 ≤ x2 ∧
            (x2 - x1 + 1 = 2 * it.1.y + 1 ∨ x2 - x1 + 1 = 2 * it.1.x + 1) ∧
            cx - r ≤ x1 ∧ x2 ≤ cx + r ∧ cy - r ≤ row ∧ row ≤ cy + r) ∧
          (r < cx → r < cy → cx + r < 1073741824 →
            1 ≤ row ∧ 2 ≤ shl32 x1 ∧
            hline32 x1 x2 row =
              cursorSeq row (shl32 x1) ++
                fmtPrecS (shl32 (wrap32 (wrap32 (x2 - x1) + 1))) theLine)) := by
    intro it hit e he
    obtain ⟨⟨h0, hxy, hyr⟩, hout⟩ := hgeo it hit
    rw [hout] at he
    rcases mem_body32_cases r cx cy flags it.1 e h0 hxy hyr c1 c2 c3 c4 he with
      ⟨a, b, c, d, f, g, k, rfl⟩ | ⟨a, b, rfl, hab⟩ | ⟨w, b, rfl, hwb⟩
    · exact ⟨fun p q h => (by cases h), fun x1 x2 row h => (by cases h)⟩
    · refine ⟨fun p q h => ?_, fun x1 x2 row h => (by cases h)⟩
      cases h
      exact ⟨⟨by omega, by omega, by omega, by omega⟩,
        fun h1 h2 h3 => ⟨by omega, by unfold shl32 wrap32; omega, rfl⟩⟩
    · refine ⟨fun p q h => (by cases h), fun x1 x2 row h => ?_⟩
      cases h
      exact ⟨⟨by omega, by omega, by omega, by omega, by omega, by omega⟩,
        fun h1 h2 h3 => ⟨by omega, by unfold shl32 wrap32; omega, rfl⟩⟩
  refine ⟨main, ?_⟩
  intro p q hm
  rw [bh32, marked_evsOf] at hm
  obtain ⟨it, hit, e, he, hmk⟩ := hm
  obtain ⟨hd, hh⟩ := main it hit e he
  cases e with
  | dot a b =>
    obtain ⟨hb, -⟩ := hd a b rfl
    simp only [Ev.marks] at hmk
    omega
  | hline x1 x2 row =>
    obtain ⟨hb, -⟩ := hh x1 x2 row rfl
    simp only [Ev.marks] at hmk
    omega
  | trace a b c d f g k => exact absurd hmk (by simp [Ev.marks])

theorem bh32_primitives_in_square_witness :
    (0 : Int) ≤ 5 ∧ (5 : Int) ≤ 2147483646 ∧
    ((-2147483648 : Int) + 5 ≤ 10 ∧ (10 : Int) ≤ 2147483647 - 5) ∧
    marked (bh32 5 10 10 FL_FILL) 12 15 ∧
    ((10 : Int) - 5 ≤ 12 ∧ (12 : Int) ≤ 10 + 5 ∧ (10 : Int) - 5 ≤ 15 ∧ (15 : Int) ≤ 10 + 5) :=
  ⟨by decide, by decide, by decide,
   ⟨Ev.hline 8 12 15, by decide, rfl, by decide, by decide⟩,
   ((bh32_primitives_in_square 5 10 10 FL_FILL (by decide) (by decide)).2
      (by decide) (by decide) (by decide) (by decide)).2 12 15
     ⟨Ev.hline 8 12 15, by decide, rfl, by decide, by decide⟩⟩

/-- C14 as stated fails where the `int` arithmetic wraps: for `r = 0` and the
centre `(2^30, 1)`, with `r < cx` and `r < cy`, the program plots the column
`2^30`, whose character column `x << 1` wraps to `-2^31`; and for `r = 1`,
`cx = 2^31 - 1` it plots the wrapped column `-2^31`, outside
`[cx - r, cx + r]`. -/
theorem cursor_column_wrap_counterexample :
    ((0 : Int) ≤ 0 ∧ (0 : Int) < 1073741824 ∧ (0 : Int) < 1) ∧
    Ev.dot 1073741824 1 ∈ bh32 0 1073741824 1 0 ∧
    shl32 1073741824 = -2147483648 ∧ ¬ (2 : Int) ≤ shl32 1073741824 ∧
    dot32 1073741824 1 = cursorSeq 1 (-2147483648) ++ ['*'] ∧
    Ev.dot (-2147483648) 0 ∈ bh32 1 2147483647 0 0 ∧
    ¬ ((2147483647 : Int) - 1 ≤ -2147483648) := by
  refine ⟨by decide, by decide, by decide, by decide, ?_, by decide, by decide⟩
  have h : shl32 1073741824 = -2147483648 := by decide
  rw [dot32, h]

/-! ## Fast evaluation of the guard: correctness -/

theorem sle32_iff (a b : Nat) (v w : Int) (ha : Enc a v) (hb : Enc b w) :
    sle32 a b = true ↔ v ≤ w := by
  have ha1 := ha.lt
  have hb1 := hb.lt
  rw [ha.eq, hb.eq]
  unfold sle32 wrap32
  rw [Nat.ble_eq]
  omega

theorem enc_add (a : Nat) (v : Int) (k : Nat) (ha : Enc a v) :
    Enc ((a + k) % 4294967296) (wrap32 (v + (k : Int))) := by
  have ha1 := ha.lt
  refine ⟨Nat.mod_lt _ (by omega), ?_⟩
  rw [ha.eq]
  unfold wrap32
  omega

theorem enc_sub (a b : Nat) (v w : Int) (ha : Enc a v) (hb : Enc b w) :
    Enc ((a + 4294967296 - b) % 4294967296) (wrap32 (v - w)) := by
  have ha1 := ha.lt
  have hb1 := hb.lt
  refine ⟨Nat.mod_lt _ (by omega), ?_⟩
  rw [ha.eq, hb.eq]
  unfold wrap32
  omega

theorem enc_sub_const (a : Nat) (v : Int) (k : Nat) (hk : k ≤ 4294967296) (ha : Enc a v) :
    Enc ((a + (4294967296 - k)) % 4294967296) (wrap32 (v - (k : Int))) := by
  have ha1 := ha.lt
  refine ⟨Nat.mod_lt _ (by omega), ?_⟩
  rw [ha.eq]
  unfold wrap32
  omega

theorem guards32_succ (n x dx2 y y2 dy2 sum : Nat) :
    guards32 (n + 1) x dx2 y y2 dy2 sum =
      if sle32 x y then
        if sle32 ((sum + 4294967296 - dx2) % 4294967296) y2 then
          guards32 n ((x + 1) % 4294967296) ((dx2 + 2) % 4294967296)
            ((y + 4294967295) % 4294967296) ((y2 + 4294967296 - dy2) % 4294967296)
            ((dy2 + 4294967294) % 4294967296) ((sum + 4294967296 - dx2) % 4294967296)
        else
          guards32 n ((x + 1) % 4294967296) ((dx2 + 2) % 4294967296) y y2 dy2
            ((sum + 4294967296 - dx2) % 4294967296)
      else false := rfl

/-- When the guard holds in the first `n` iterations, the 32-bit loop
performs at least `n` iterations under any budget of at least `n`. -/
theorem guards32_length (cx cy flags : Int) :
    ∀ (n m : Nat) (x dx2 y y2 dy2 sum : Nat) (s : St),
      Enc x s.x → Enc dx2 s.dx2 → Enc y s.y → Enc y2 s.y2 → Enc dy2 s.dy2 → Enc sum s.sum →
      guards32 n x dx2 y y2 dy2 sum = true → n ≤ m →
      n ≤ (bhLoop32 cx cy flags m s).1.length := by
  intro n
  induction n with
  | zero => intro m x dx2 y y2 dy2 sum s _ _ _ _ _ _ _ _; exact Nat.zero_le _
  | succ n ih =>
    intro m x dx2 y y2 dy2 sum s ex edx ey ey2 edy es hg hnm
    obtain ⟨m, rfl⟩ : ∃ k, m = k + 1 := ⟨m - 1, by omega⟩
    rw [guards32_succ] at hg
    by_cases hxy : sle32 x y = true
    · rw [if_pos hxy] at hg
      have hguard : s.x ≤ s.y := (sle32_iff x y s.x s.y ex ey).mp hxy
      rw [bhLoop32_succ_step _ _ _ _ _ hguard, List.length_cons]
      have esum := enc_sub sum dx2 s.sum s.dx2 es edx
      have ex' := enc_add x s.x 1 ex
      have edx' := enc_add dx2 s.dx2 2 edx
      by_cases hc : sle32 ((sum + 4294967296 - dx2) % 4294967296) y2 = true
      · rw [if_pos hc] at hg
        have hcond : wrap32 (s.sum - s.dx2) ≤ s.y2 :=
          (sle32_iff _ y2 _ s.y2 esum ey2).mp hc
        have ey' := enc_sub_const y s.y 1 (by omega) ey
        have ey2' := enc_sub y2 dy2 s.y2 s.dy2 ey2 edy
        have edy' := enc_sub_const dy2 s.dy2 2 (by omega) edy
        have h := ih m _ _ _ _ _ _ (step32 s)
          (by simpa only [step32, if_pos hcond] using ex')
          (by simpa only [step32, if_pos hcond] using edx')
          (by simpa only [step32, if_pos hcond] using ey')
          (by simpa only [step32, if_pos hcond] using ey2')
          (by simpa only [step32, if_pos hcond] using edy')
          (by simpa only [step32, if_pos hcond] using esum)
          hg (by omega)
        omega
      · rw [if_neg hc] at hg
        have hcond : ¬ wrap32 (s.sum - s.dx2) ≤ s.y2 :=
          fun h => hc ((sle32_iff _ y2 _ s.y2 esum ey2).mpr h)
        have h := ih m _ _ _ _ _ _ (step32 s)
          (by simpa only [step32, if_neg hcond] using ex')
          (by simpa only [step32, if_neg hcond] using edx')
          (by simpa only [step32, if_neg hcond] using ey)
          (by simpa only [step32, if_neg hcond] using ey2)
          (by simpa only [step32, if_neg hcond] using edy)
          (by simpa only [step32, if_neg hcond] using esum)
          hg (by omega)
        omega
    · rw [if_neg hxy] at hg
      exact absurd hg (by decide)

set_option maxRecDepth 1000000 in
theorem guards32_46414 : guards32 32822 0 1 46414 2154259396 92827 2154305810 = true := by
  decide!

/-- C13 as stated fails once `r*r + r` overflows: for `r = 46414` the
integers `x >= 0` with `2*x*x < r*r + r` are `0, ..., 32820`, 32821 of them,
but the 32-bit program performs more than 32821 loop iterations. -/
theorem iteration_count_overflow_counterexample :
    (1 : Int) ≤ 46414 ∧
    (∀ x : Int, 0 ≤ x → 2 * x * x < 46414 * 46414 + 46414 → x < 32821) ∧
    32821 < (bhIters32 46414 0 0 0).length ∧
    ¬ (∀ x : Int, (0 ≤ x ∧ 2 * x * x < 46414 * 46414 + 46414) ↔
        (0 ≤ x ∧ x < ((bhIters32 46414 0 0 0).length : Int))) := by
  have hsmall : ∀ x : Int, 0 ≤ x → 2 * x * x < 46414 * 46414 + 46414 → x < 32821 := by
    intro x hx h
    by_contra hc
    push_neg at hc
    nlinarith [mul_nonneg (show (0 : Int) ≤ x - 32821 by omega) (show (0 : Int) ≤ x + 32821 by omega)]
  have hlen : 32821 < (bhIters32 46414 0 0 0).length := by
    have h := guards32_length 0 0 0 32822 ((46414 : Int) + 1).toNat 0 1 46414 2154259396 92827
      2154305810 (init32 46414)
      ⟨by omega, by decide⟩ ⟨by omega, by decide⟩ ⟨by omega, by decide⟩
      ⟨by omega, by decide⟩ ⟨by omega, by decide⟩ ⟨by omega, by decide⟩
      guards32_46414 (by omega)
    exact h
  refine ⟨by omega, hsmall, hlen, ?_⟩
  intro h
  have h1 := (h 32821).mpr ⟨by omega, by exact_mod_cast hlen⟩
  have h2 := hsmall 32821 (by omega) h1.2
  omega

end Bresenham
